import Mathlib

/-!
Verification of the gemini-mcp deep-research core against its specification.

Text is modelled as `List Char` (JS strings at code-point granularity).
JS `number` values that are integral in every reachable state are modelled
as `Nat`/`Int`; the two fractional constants (`0.75`, `0.20`, `0.8`) are
modelled exactly in `ℚ` (each is exactly representable or its floating-point
error provably never crosses an integer boundary at realistic inputs).
-/

namespace GeminiMcp

abbrev Str := List Char

def str (s : String) : Str := s.data

def natStr (n : ℕ) : Str := (Nat.repr n).data

/-! ## Source extractor (`GeminiDeepResearchTool.extractSources`)

The source applies the global regex `/https?:\/\/[^\s)]+/g`, strips trailing
`[.,;:]+` from each match, keeps matches of length > 10, and deduplicates via
`new Set` (insertion order preserved). -/

/-- JS regex `\s` character class. -/
def jsWhitespace (c : Char) : Bool :=
  c == ' ' || c == '\t' || c == '\n' || c == '\r' ||
  c.val == 11 || c.val == 12 || c.val == 0xa0 || c.val == 0x1680 ||
  (0x2000 ≤ c.val && c.val ≤ 0x200a) ||
  c.val == 0x2028 || c.val == 0x2029 || c.val == 0x202f ||
  c.val == 0x205f || c.val == 0x3000 || c.val == 0xfeff

/-- Character class `[^\s)]` of the URL regex body. -/
def isUrlChar (c : Char) : Bool := !(jsWhitespace c) && !(c == ')')

/-- One attempted match of `https?:\/\/[^\s)]+` anchored at the start of the
input; returns the match and the rest.  The optional `s` needs no
backtracking: if an `s` follows `http`, the no-`s` branch would have to read
`://` starting at that `s`, which is impossible. -/
def tryMatch : Str → Option (Str × Str)
  | 'h' :: 't' :: 't' :: 'p' :: rest =>
    match rest with
    | 's' :: ':' :: '/' :: '/' :: r2 =>
      if (r2.takeWhile isUrlChar).isEmpty then none
      else some (str "https://" ++ r2.takeWhile isUrlChar, r2.dropWhile isUrlChar)
    | ':' :: '/' :: '/' :: r2 =>
      if (r2.takeWhile isUrlChar).isEmpty then none
      else some (str "http://" ++ r2.takeWhile isUrlChar, r2.dropWhile isUrlChar)
    | _ => none
  | _ => none

/-- Fuel-indexed global scan (the fuel is only a termination device; with
fuel ≥ length of the input the result is the JS `String.match` list). -/
def scanAux : ℕ → Str → List Str
  | 0, _ => []
  | _ + 1, [] => []
  | fuel + 1, c :: t =>
    match tryMatch (c :: t) with
    | some (m, r) => m :: scanAux fuel r
    | none => scanAux fuel t

/-- All matches of `/https?:\/\/[^\s)]+/g` over the text, in order. -/
def scanUrls (s : Str) : List Str := scanAux s.length s

/-- The trailing-punctuation class `[.,;:]` stripped by
`url.replace(/[.,;:]+$/, '')`. -/
def isTrailPunct (c : Char) : Bool := c == '.' || c == ',' || c == ';' || c == ':'

/-- `url.replace(/[.,;:]+$/, '')`. -/
def cleanUrl (m : Str) : Str := (m.reverse.dropWhile isTrailPunct).reverse

/-- `[...new Set(xs)]` / `Set.has`-guarded accumulation: first occurrence
kept, later duplicates dropped. -/
def dedupAux {α : Type} [DecidableEq α] (seen : List α) : List α → List α
  | [] => []
  | x :: xs => if x ∈ seen then dedupAux seen xs else x :: dedupAux (x :: seen) xs

def dedupFirst {α : Type} [DecidableEq α] (l : List α) : List α := dedupAux [] l

/-- `GeminiDeepResearchTool.extractSources`. -/
def extractSources (content : Str) : List Str :=
  dedupFirst (((scanUrls content).map cleanUrl).filter (fun u => u.length > 10))

/-- `" ".join`-style concatenation used to re-feed the extractor's own
output (space-separated concatenation). -/
def joinSpace : List Str → Str
  | [] => []
  | [x] => x
  | x :: y :: t => x ++ ' ' :: joinSpace (y :: t)

/-- The two scheme literals the regex can produce. -/
def SchemeStr (sch : Str) : Prop := sch = str "http://" ∨ sch = str "https://"

/-- A token that the extractor can output: a full regex match with no
trailing punctuation and length > 10. -/
def GoodTok (g : Str) : Prop :=
  tryMatch g = some (g, []) ∧ cleanUrl g = g ∧ 10 < g.length

/-! ## Iteration-count handling (`execute`, line `const maxIterations = ...`)

`Math.min(args.max_iterations || 5, 10)`.  The argument is modelled as
`Option ℤ` (absent, or any integer the transport delivers); `x || 5`
replaces the falsy value `0` (and absence) by `5`. -/

def jsOrFive : Option ℤ → ℤ
  | none => 5
  | some v => if v = 0 then 5 else v

/-- `const maxIterations = Math.min(args.max_iterations || 5, 10);` -/
def effIterations (a : Option ℤ) : ℤ := min (jsOrFive a) 10

/-! ## Budget derivation (`execute`, token budget allocation)

`0.75 = 3/4` is a dyadic rational, so `Math.floor(w * 0.75)` is exactly
`⌊3w/4⌋` (the double product is exact for every realistic window size).
`0.20` is not exactly representable, but the nearest double exceeds `1/5`
by a relative `2.8e-17`, so `w * 0.20` rounds to a value whose floor is
`⌊w/5⌋` for every `w` below `10^15` (the error never reaches the next
integer, and when `w/5` is an integer the product rounds back to it).
Both floors are therefore written as natural division; the agreement with
the exact rational floors is proved in `researchBudget_eq_floor` and
`synthesisReserve_eq_floor`. -/

/-- `Math.floor(modelContextWindow * 0.75)` -/
def researchBudget (w : ℕ) : ℤ := ((w * 3) / 4 : ℕ)

/-- `Math.floor(modelContextWindow * 0.20)` -/
def synthesisReserve (w : ℕ) : ℤ := ((w / 5 : ℕ) : ℤ)

/-! ## Grounding metadata and `GeminiService.addInlineCitations`

`chunk.web?.uri` is modelled as `Option Str` (absent `web` and absent `uri`
coincide); the `|| []` defaults on `groundingSupports` / `groundingChunks`
and absent `webSearchQueries` are folded into the list model (absent =
empty list). -/

structure GroundingChunk where
  webUri : Option Str
deriving DecidableEq

structure GroundingSupport where
  groundingChunkIndices : List ℕ
deriving DecidableEq

structure GroundingMetadata where
  groundingSupports : List GroundingSupport
  groundingChunks : List GroundingChunk
  webSearchQueries : List Str
deriving DecidableEq

/-- JS `Array.prototype.join(sep)`. -/
def joinSep (sep : Str) : List Str → Str
  | [] => []
  | [x] => x
  | x :: y :: t => x ++ sep ++ joinSep sep (y :: t)

/-- Inner loop over one support's `groundingChunkIndices`: an index inside
the chunks range that is not yet used and whose chunk carries a web URI
pushes the URI and marks the index used. -/
def citeIndices (chunks : List GroundingChunk) :
    List ℕ → List ℕ → List Str → List ℕ × List Str
  | [], used, links => (used, links)
  | idx :: rest, used, links =>
    if idx < chunks.length ∧ idx ∉ used then
      match chunks[idx]? with
      | some ch =>
        match ch.webUri with
        | some uri => citeIndices chunks rest (idx :: used) (links ++ [uri])
        | none => citeIndices chunks rest used links
      | none => citeIndices chunks rest used links
    else citeIndices chunks rest used links

/-- Outer loop over the support entries (the source's
`if (indices.length)` guard is a no-op: an empty inner loop does nothing). -/
def citeSupports (chunks : List GroundingChunk) :
    List GroundingSupport → List ℕ → List Str → List ℕ × List Str
  | [], used, links => (used, links)
  | s :: ss, used, links =>
    citeSupports chunks ss (citeIndices chunks s.groundingChunkIndices used links).1
      (citeIndices chunks s.groundingChunkIndices used links).2

/-- `"\n\nSearch queries used: " + webSearchQueries.join(', ')` -/
def searchLine (md : GroundingMetadata) : Str :=
  str "\n\nSearch queries used: " ++ joinSep (str ", ") md.webSearchQueries

/-- `GeminiService.addInlineCitations`. -/
def addInlineCitations (text : Str) (md : GroundingMetadata) : Str :=
  if md.webSearchQueries ≠ [] ∧ md.groundingSupports = [] ∧ md.groundingChunks = [] then
    text ++ searchLine md
  else if md.groundingSupports = [] ∨ md.groundingChunks = [] then
    text
  else
    (if (citeSupports md.groundingChunks md.groundingSupports [] []).2 ≠ [] then
      text ++ str "\n\nSources: " ++
        joinSep (str " ")
          (((citeSupports md.groundingChunks md.groundingSupports [] []).2).map
            (fun u => '(' :: (u ++ [')'])))
    else text) ++
    (if md.webSearchQueries ≠ [] then searchLine md else [])

/-! Declarative description of the citation-link resolution, used to state
the amended C7. -/

/-- The chunk at index `i` exists and carries a web URI. -/
def hasUri (chunks : List GroundingChunk) (i : ℕ) : Bool :=
  match chunks[i]? with
  | some ch => ch.webUri.isSome
  | none => false

/-- The URI of the chunk at index `i` (defaulting to the empty string). -/
def getUri (chunks : List GroundingChunk) (i : ℕ) : Str :=
  match chunks[i]? with
  | some ch => ch.webUri.getD []
  | none => []

/-- A chunk index a support entry can successfully cite. -/
def okIdx (chunks : List GroundingChunk) (i : ℕ) : Bool :=
  decide (i < chunks.length) && hasUri chunks i

/-- All successfully cited chunk indices: flatten the per-support index
lists, keep in-range indices with a URI, dedup keeping first occurrence. -/
def referencedIdxs (md : GroundingMetadata) : List ℕ :=
  dedupFirst (((md.groundingSupports.map
    (fun s => s.groundingChunkIndices)).flatten).filter (okIdx md.groundingChunks))

/-- Declarative form of the citation-link list. -/
def citationLinksSpec (md : GroundingMetadata) : List Str :=
  (referencedIdxs md).map (getUri md.groundingChunks)

/-- The newly used indices produced by one pass of the citation loop,
threading the used-set. -/
def newIdxs (chunks : List GroundingChunk) : List ℕ → List ℕ → List ℕ
  | [], _ => []
  | i :: rest, used =>
    if okIdx chunks i = true ∧ i ∉ used then i :: newIdxs chunks rest (i :: used)
    else newIdxs chunks rest used

/-! ## Model catalog: `GeminiService.selectDefaultModel`

Only the fields the selection logic reads are modelled.  `parseFloat` of
the regex capture `(\d+\.?\d*)` always yields the exact decimal value
`intPart + fracDigits / 10^k`; versions are represented as exact fractions
`(numerator, power-of-ten denominator)` and compared by cross
multiplication, which coincides with the numeric comparison the JS sort
comparator performs. -/

structure ModelInfo where
  name : Str
  contextWindow : ℕ
deriving DecidableEq

def lowerStr (s : Str) : Str := s.map Char.toLower

/-- JS `String.prototype.includes`. -/
def containsSub (pat : Str) : Str → Bool
  | [] => List.isPrefixOf pat []
  | c :: t => List.isPrefixOf pat (c :: t) || containsSub pat t

/-- `m.name.toLowerCase().includes('gemini')` -/
def hasGemini (name : Str) : Bool := containsSub (str "gemini") (lowerStr name)

/-- `name.toLowerCase().includes('flash')` -/
def isFlash (name : Str) : Bool := containsSub (str "flash") (lowerStr name)

/-- The stability filter of `selectDefaultModel`. -/
def isStable (name : Str) : Bool :=
  !(containsSub (str "-exp") (lowerStr name)) &&
  !(containsSub (str "-preview") (lowerStr name)) &&
  !(containsSub (str "experimental") (lowerStr name)) &&
  !(containsSub (str "-thinking-") (lowerStr name))

def digitsToNat (ds : Str) : ℕ := ds.foldl (fun a c => a * 10 + (c.toNat - 48)) 0

/-- `parseFloat` of the first regex capture `(\d+\.?\d*)`, as an exact
fraction (numerator, denominator). -/
def parseVer (s : Str) : ℕ × ℕ :=
  match s.dropWhile Char.isDigit with
  | '.' :: r2 =>
    (digitsToNat (s.takeWhile Char.isDigit) * 10 ^ (r2.takeWhile Char.isDigit).length
       + digitsToNat (r2.takeWhile Char.isDigit),
     10 ^ (r2.takeWhile Char.isDigit).length)
  | _ => (digitsToNat (s.takeWhile Char.isDigit), 1)

/-- `extractVersion`: value of the first decimal number in the name,
`0` when none occurs. -/
def extractVersion : Str → ℕ × ℕ
  | [] => (0, 1)
  | c :: t => if c.isDigit then parseVer (c :: t) else extractVersion t

/-- Exact comparison of two version fractions. -/
def verLt (a b : ℕ × ℕ) : Bool := decide (a.1 * b.2 < b.1 * a.2)

def verEq (a b : ℕ × ℕ) : Bool := decide (a.1 * b.2 = b.1 * a.2)

def verLe (a b : ℕ × ℕ) : Bool := decide (a.1 * b.2 ≤ b.1 * a.2)

/-- `a` sorts strictly before `b` under the comparator of
`selectDefaultModel`: higher version first, `flash` breaking ties. -/
def betterThan (a b : ModelInfo) : Bool :=
  if verEq (extractVersion a.name) (extractVersion b.name) then
    isFlash a.name && !(isFlash b.name)
  else
    verLt (extractVersion b.name) (extractVersion a.name)

/-- `sorted[0]` of the stable JS sort: the first element among those
minimal under the comparator preorder (ties keep the earlier element). -/
def pickBest (m : ModelInfo) (rest : List ModelInfo) : ModelInfo :=
  rest.foldl (fun best x => if betterThan x best then x else best) m

/-- The experimental-model exclusion applied to the gemini-filtered
candidates (`stableModels` fallback included). -/
def surviving (allowExp : Bool) (g : List ModelInfo) : List ModelInfo :=
  if allowExp then g
  else if (g.filter (fun m => isStable m.name)).isEmpty then g
  else g.filter (fun m => isStable m.name)

/-- `GeminiService.selectDefaultModel` (the `[]` branch of `surviving` is
unreachable: `surviving` of a nonempty list is nonempty). -/
def selectDefaultModel (allowExp : Bool) (models : List ModelInfo) : Option Str :=
  match models with
  | [] => none
  | m0 :: _ =>
    match models.filter (fun m => hasGemini m.name) with
    | [] => some m0.name
    | g0 :: grest =>
      match surviving allowExp (g0 :: grest) with
      | [] => some m0.name
      | x :: xs => some (pickBest x xs).name

/-! ## Deep-research orchestration (`GeminiDeepResearchTool.execute`)

The backend is an oracle: `research i` is the outcome of the grounded chat
call of iteration `i`, `synth` the outcome of the synthesis call.  The
`calls` field is a ghost trace recording the iteration index of every
research backend call actually issued; `usage` is the call's
`usageMetadata.totalTokenCount` (`none` when the response carries no usage
metadata, in which case the source adds nothing). -/

structure ResearchStep where
  query : Str
  response : Str
  sources : List Str
  usageTotal : ℕ
deriving DecidableEq

structure ChatSuccess where
  content : Str
  usage : Option ℕ
deriving DecidableEq

inductive ChatOutcome
  | ok (r : ChatSuccess)
  | fail (msg : Str)
deriving DecidableEq

structure Oracle where
  research : ℕ → ChatOutcome
  synth : ChatOutcome

structure RunCfg where
  question : Str
  model : Str
  focusAreas : List Str
  maxIterationsRaw : Option ℤ
  contextWindow : ℕ
deriving DecidableEq

structure LoopState where
  report : Str
  steps : List ResearchStep
  cumulativeTokens : ℕ
  consecutiveFailures : ℕ
  calls : List ℕ
deriving DecidableEq

/-! ### Context compactor (`buildSmartContext`, `buildSynthesisContext`) -/

/-- One step's summary in the recency-biased context:
`` `Previous finding ${i + 1}: ${response.substring(0, min(1000, len))}${...}\n\n` ``. -/
def stepSummary (i : ℕ) (resp : Str) : Str :=
  str "Previous finding " ++ natStr (i + 1) ++ str ": " ++
  resp.take (min 1000 resp.length) ++
  (if min 1000 resp.length < resp.length then str "..." else []) ++ str "\n\n"

/-- `maxTokens * ESTIMATED_CHARS_PER_TOKEN * 0.8` (exact rational value of
the float product; the threshold is never within floating error of an
integer boundary that the comparison could cross). -/
def smartMaxChars (maxTokens : ℤ) : ℚ := (maxTokens : ℚ) * 4 * 0.8

/-- The descending loop of `buildSmartContext`: walk steps from most recent
to oldest, prepending summaries, breaking before any summary that would
push the accumulated character count over the budget. -/
def smartGo : List (ℕ × ResearchStep) → ℚ → ℕ → Str → Str
  | [], _, _, ctx => ctx
  | (i, st) :: rest, mc, cur, ctx =>
    if ((cur + (stepSummary i st.response).length : ℕ) : ℚ) > mc then ctx
    else smartGo rest mc (cur + (stepSummary i st.response).length)
      (stepSummary i st.response ++ ctx)

/-- `GeminiDeepResearchTool.buildSmartContext`. -/
def buildSmartContext (steps : List ResearchStep) (maxTokens : ℤ) : Str :=
  if steps.isEmpty then []
  else smartGo steps.enum.reverse (smartMaxChars maxTokens) 0 []

/-- The per-step summaries of the recency-biased context, in step order. -/
def summaries (steps : List ResearchStep) : List Str :=
  steps.enum.map (fun p => stepSummary p.1 p.2.response)

def charTotal (l : List Str) : ℕ := (l.map List.length).sum

/-- `Math.floor((maxTokens * 4) / steps.length)` (floor division). -/
def maxCharsPerStep (steps : List ResearchStep) (maxTokens : ℤ) : ℤ :=
  (maxTokens * 4).fdiv steps.length

/-- One entry of the synthesis context; `substring(0, n)` clamps a negative
`n` to `0`, which `Int.toNat` captures. -/
def synthEntry (steps : List ResearchStep) (maxTokens : ℤ) (i : ℕ)
    (resp : Str) : Str :=
  str "Research Iteration " ++ natStr (i + 1) ++ str ":\n" ++
  (if (resp.length : ℤ) > maxCharsPerStep steps maxTokens then
    resp.take (maxCharsPerStep steps maxTokens).toNat ++ str "..."
  else resp)

/-- The per-step entries of the synthesis context (the mapped array the
source `.join`s). -/
def synthEntries (steps : List ResearchStep) (maxTokens : ℤ) : List Str :=
  steps.enum.map (fun p => synthEntry steps maxTokens p.1 p.2.response)

/-- `GeminiDeepResearchTool.buildSynthesisContext`. -/
def buildSynthesisContext (steps : List ResearchStep) (maxTokens : ℤ) : Str :=
  joinSep (str "\n\n") (synthEntries steps maxTokens)

/-! ### The iteration loop -/

def focusArea (cfg : RunCfg) (i : ℕ) : Str := cfg.focusAreas.getD i []

/-- The `### Iteration i+1` report header (with the focus area when one
applies to this iteration). -/
def iterHeader (cfg : RunCfg) (i : ℕ) : Str :=
  if 0 < cfg.focusAreas.length ∧ i < cfg.focusAreas.length then
    str "### Iteration " ++ natStr (i + 1) ++ str ": " ++ focusArea cfg i ++
      str "\n\n"
  else str "### Iteration " ++ natStr (i + 1) ++ str "\n\n"

def iterBasePrompt (cfg : RunCfg) (i : ℕ) : Str :=
  if 0 < cfg.focusAreas.length ∧ i < cfg.focusAreas.length then
    cfg.question ++ str "\n\nFocus specifically on: " ++ focusArea cfg i
  else cfg.question

/-- The full iteration prompt: base prompt plus the recency-biased context
when it is nonempty and the iteration is not the first. -/
def iterPrompt (cfg : RunCfg) (st : LoopState) (i : ℕ) : Str :=
  if buildSmartContext st.steps
      (researchBudget cfg.contextWindow - st.cumulativeTokens) ≠ [] ∧ 0 < i then
    iterBasePrompt cfg i ++ str "\n\nContext from previous research:\n" ++
      buildSmartContext st.steps
        (researchBudget cfg.contextWindow - st.cumulativeTokens)
  else iterBasePrompt cfg i

def failNote (i : ℕ) (e : Str) : Str :=
  str "*Iteration " ++ natStr (i + 1) ++ str " failed: " ++ e ++ str "*\n\n"

def budgetNote (n : ℕ) : Str :=
  str "\n*Note: Research stopped at iteration " ++ natStr n ++
    str " due to token budget limits.*\n\n"

inductive IterOut
  | cont (st : LoopState)
  | abortRIF (st : LoopState)
deriving DecidableEq

/-- The body of one iteration, from the backend call to the state updates
(the budget guard lives in `runLoop`).  On success: tokens are added when
usage metadata is present, the failure streak resets, the step is recorded
and the response is appended to the report.  On failure: the streak
increments; two consecutive failures with zero recorded steps abort with
`RESEARCH_ITERATIONS_FAILING`; otherwise a failure note is appended and
the loop continues. -/
def runIter (cfg : RunCfg) (oracle : Oracle) (i : ℕ) (st : LoopState) : IterOut :=
  match oracle.research i with
  | .ok r =>
    .cont { report := st.report ++ iterHeader cfg i ++ r.content ++ str "\n\n",
            steps := st.steps ++ [⟨iterPrompt cfg st i, r.content,
              extractSources r.content, r.usage.getD 0⟩],
            cumulativeTokens := st.cumulativeTokens + r.usage.getD 0,
            consecutiveFailures := 0,
            calls := st.calls ++ [i] }
  | .fail e =>
    if 2 ≤ st.consecutiveFailures + 1 ∧ st.steps = [] then
      .abortRIF { st with
        consecutiveFailures := st.consecutiveFailures + 1,
        calls := st.calls ++ [i],
        report := st.report ++ iterHeader cfg i }
    else
      .cont { st with
        consecutiveFailures := st.consecutiveFailures + 1,
        calls := st.calls ++ [i],
        report := st.report ++ iterHeader cfg i ++ failNote i e }

inductive LoopResult
  | aborted (st : LoopState)
  | finished (st : LoopState) (budgetStopped : Bool)
deriving DecidableEq

/-- `for (let i = 0; i < maxIterations; i++)` with the budget guard at the
top of each pass; `rem` is the number of passes left. -/
def runLoop (cfg : RunCfg) (oracle : Oracle) : ℕ → ℕ → LoopState → LoopResult
  | _, 0, st => .finished st false
  | i, rem + 1, st =>
    if researchBudget cfg.contextWindow ≤ (st.cumulativeTokens : ℤ) then
      .finished { st with report := st.report ++ budgetNote (i + 1) } true
    else
      match runIter cfg oracle i st with
      | .cont st' => runLoop cfg oracle (i + 1) rem st'
      | .abortRIF st' => .aborted st'

/-! ### Report header, footer, post-loop phases -/

def initReport (cfg : RunCfg) (maxIter : ℕ) : Str :=
  str "# Deep Research Report\n\n## Research Question\n" ++ cfg.question ++
  str "\n\n" ++
  (if 0 < cfg.focusAreas.length then
    str "## Focus Areas\n" ++
      joinSep (str "\n") (cfg.focusAreas.map (fun a => str "- " ++ a)) ++
      str "\n\n"
  else []) ++
  str "## Research Process\n\n*Conducting " ++ natStr maxIter ++
  str " research iteration" ++ (if 1 < maxIter then str "s" else []) ++
  str " with Google Search grounding...*\n\n"

def initState (cfg : RunCfg) (maxIter : ℕ) : LoopState :=
  { report := initReport cfg maxIter, steps := [], cumulativeTokens := 0,
    consecutiveFailures := 0, calls := [] }

/-- The deduplicated union of all steps' sources, first appearance order. -/
def allSources (steps : List ResearchStep) : List Str :=
  dedupFirst (steps.map (fun s => s.sources)).flatten

def sourcesSection (steps : List ResearchStep) : Str :=
  str "### Sources Consulted\n\n" ++
  (match allSources steps with
   | [] => str "*Note: No external sources were cited. This may indicate grounding did not function properly.*\n"
   | l => ((l.enum.map
       (fun p => natStr (p.1 + 1) ++ str ". " ++ p.2 ++ str "\n")).flatten))

/-- `(cumulative / window * 100).toFixed(1)`, displayed to one decimal
place (display-only text; modelled with floor instead of round-half, and
`NaN` for a zero window — no claim inspects this text). -/
def pctStr (cum w : ℕ) : Str :=
  if w = 0 then str "NaN"
  else natStr (cum * 1000 / w / 10) ++ str "." ++ natStr (cum * 1000 / w % 10)

def footerStr (cfg : RunCfg) (n cum : ℕ) : Str :=
  str "\n---\n\n*Research completed with " ++ natStr n ++
  str " successful iteration" ++ (if 1 < n then str "s" else []) ++
  str " using " ++ cfg.model ++ str "*\n" ++
  str "*Total tokens used: " ++ natStr cum ++ str " / " ++
  natStr cfg.contextWindow ++ str " available*\n" ++
  str "*Context window utilization: " ++ pctStr cum cfg.contextWindow ++
  str "%*\n"

def synthHeaderStr : Str := str "### Synthesis\n\n"

def synthFailNote (e : Str) : Str :=
  str "*Note: Synthesis phase encountered an error (" ++ e ++
    str "). Individual research findings are provided above.*\n\n"

def synthPlaceholder : Str :=
  str "Synthesis unavailable. Please review the individual research findings above."

inductive RunResult
  | ok (report : Str)
  | err (code : Str)
deriving DecidableEq

/-- The observable outcome of a run: the tool result plus ghost trace data
(recorded steps, issued research calls, cumulative tokens at the end of the
loop, and the synthesis call's token allowance and context when one was
issued). -/
structure RunOut where
  result : RunResult
  finalSteps : List ResearchStep
  calls : List ℕ
  cumAtLoopEnd : ℕ
  synthBudget : Option ℤ
  synthContext : Option Str
deriving DecidableEq

/-- Everything after the loop: the zero-success terminal failure, the
optional synthesis call (its failure appends a note and a placeholder but
the run still succeeds), the sources section and the footer. -/
def finishRun (cfg : RunCfg) (oracle : Oracle) (st : LoopState) : RunOut :=
  if st.steps = [] then
    { result := .err (str "ALL_ITERATIONS_FAILED"), finalSteps := st.steps,
      calls := st.calls, cumAtLoopEnd := st.cumulativeTokens,
      synthBudget := none, synthContext := none }
  else if 1 < st.steps.length then
    match oracle.synth with
    | .ok r =>
      { result := .ok (st.report ++ synthHeaderStr ++ r.content ++ str "\n\n" ++
          sourcesSection st.steps ++
          footerStr cfg st.steps.length (st.cumulativeTokens + r.usage.getD 0)),
        finalSteps := st.steps, calls := st.calls,
        cumAtLoopEnd := st.cumulativeTokens,
        synthBudget := some (min (synthesisReserve cfg.contextWindow)
          ((cfg.contextWindow : ℤ) - st.cumulativeTokens - 10000)),
        synthContext := some (buildSynthesisContext st.steps
          (min (synthesisReserve cfg.contextWindow)
            ((cfg.contextWindow : ℤ) - st.cumulativeTokens - 10000))) }
    | .fail e =>
      { result := .ok (st.report ++ synthHeaderStr ++ synthFailNote e ++
          synthPlaceholder ++ str "\n\n" ++ sourcesSection st.steps ++
          footerStr cfg st.steps.length st.cumulativeTokens),
        finalSteps := st.steps, calls := st.calls,
        cumAtLoopEnd := st.cumulativeTokens,
        synthBudget := some (min (synthesisReserve cfg.contextWindow)
          ((cfg.contextWindow : ℤ) - st.cumulativeTokens - 10000)),
        synthContext := some (buildSynthesisContext st.steps
          (min (synthesisReserve cfg.contextWindow)
            ((cfg.contextWindow : ℤ) - st.cumulativeTokens - 10000))) }
  else
    { result := .ok (st.report ++ sourcesSection st.steps ++
        footerStr cfg st.steps.length st.cumulativeTokens),
      finalSteps := st.steps, calls := st.calls,
      cumAtLoopEnd := st.cumulativeTokens,
      synthBudget := none, synthContext := none }

/-- A whole `execute` run (argument handling, loop, post-loop phases);
the thrown `McpError`s surface as classified failure results. -/
def runResearch (cfg : RunCfg) (oracle : Oracle) : RunOut :=
  match runLoop cfg oracle 0 (effIterations cfg.maxIterationsRaw).toNat
      (initState cfg (effIterations cfg.maxIterationsRaw).toNat) with
  | .aborted st =>
    { result := .err (str "RESEARCH_ITERATIONS_FAILING"), finalSteps := st.steps,
      calls := st.calls, cumAtLoopEnd := st.cumulativeTokens,
      synthBudget := none, synthContext := none }
  | .finished st _ => finishRun cfg oracle st

/-! ### Facts about the extractor -/

theorem dropWhile_append_head_neg {p : Char → Bool} {c : Char} (hc : p c = false)
    (l t : Str) : (l ++ c :: t).dropWhile p = l.dropWhile p ++ c :: t := by
  induction l with
  | nil => simp [List.dropWhile, hc]
  | cons x l ih =>
    by_cases hx : p x
    · simpa [List.dropWhile, hx] using ih
    · simp [List.dropWhile, hx]

theorem takeWhile_append_all {p : Char → Bool} {b : Str}
    (hb : ∀ c ∈ b, p c = true) (l : Str) :
    (b ++ l).takeWhile p = b ++ l.takeWhile p := by
  induction b with
  | nil => simp
  | cons x b ih =>
    have hx : p x = true := hb x (List.mem_cons_self _ _)
    simp only [List.cons_append, List.takeWhile_cons, hx, if_true]
    simpa using ih (fun c hc => hb c (List.mem_cons_of_mem _ hc))

theorem dropWhile_append_all {p : Char → Bool} {b : Str}
    (hb : ∀ c ∈ b, p c = true) (l : Str) :
    (b ++ l).dropWhile p = l.dropWhile p := by
  induction b with
  | nil => simp
  | cons x b ih =>
    have hx : p x = true := hb x (List.mem_cons_self _ _)
    simp only [List.cons_append, List.dropWhile_cons, hx, if_true]
    exact ih (fun c hc => hb c (List.mem_cons_of_mem _ hc))

theorem cleanUrl_scheme_append {sch : Str} (hs : SchemeStr sch) (b : Str) :
    cleanUrl (sch ++ b) = sch ++ cleanUrl b := by
  have hp : isTrailPunct '/' = false := rfl
  rcases hs with h | h <;> subst h <;>
    simp [cleanUrl, List.reverse_append, dropWhile_append_head_neg hp, str]

theorem cleanUrl_idem (m : Str) : cleanUrl (cleanUrl m) = cleanUrl m := by
  have : cleanUrl m = List.rdropWhile isTrailPunct m := rfl
  rw [this]
  exact List.rdropWhile_idempotent _ _

theorem cleanUrl_prefix (m : Str) : cleanUrl m <+: m :=
  List.rdropWhile_prefix _ _

/-- Inversion for a successful regex match. -/
theorem tryMatch_some_spec {s m r : Str} (h : tryMatch s = some (m, r)) :
    ∃ sch b, SchemeStr sch ∧ m = sch ++ b ∧ b ≠ [] ∧
      (∀ c ∈ b, isUrlChar c = true) ∧ s = m ++ r := by
  unfold tryMatch at h
  split at h
  case h_2 => exact absurd h (by simp)
  case h_1 rest =>
    split at h
    case h_3 => exact absurd h (by simp)
    case h_1 r2 =>
      split at h
      · exact absurd h (by simp)
      · next hb =>
        simp only [Option.some.injEq, Prod.mk.injEq] at h
        obtain ⟨hm, hr⟩ := h
        refine ⟨str "https://", r2.takeWhile isUrlChar, Or.inr rfl, hm.symm,
          by simpa [List.isEmpty_iff] using hb,
          fun c hc => List.mem_takeWhile_imp hc, ?_⟩
        rw [← hm, ← hr]
        simp [str, List.takeWhile_append_dropWhile]
    case h_2 r2 =>
      split at h
      · exact absurd h (by simp)
      · next hb =>
        simp only [Option.some.injEq, Prod.mk.injEq] at h
        obtain ⟨hm, hr⟩ := h
        refine ⟨str "http://", r2.takeWhile isUrlChar, Or.inl rfl, hm.symm,
          by simpa [List.isEmpty_iff] using hb,
          fun c hc => List.mem_takeWhile_imp hc, ?_⟩
        rw [← hm, ← hr]
        simp [str, List.takeWhile_append_dropWhile]

theorem tryMatch_length {s m r : Str} (h : tryMatch s = some (m, r)) :
    r.length < s.length := by
  obtain ⟨sch, b, hsch, hm, _, _, hs⟩ := tryMatch_some_spec h
  subst hs
  have : 0 < m.length := by
    subst hm
    rcases hsch with h | h <;> subst h <;> simp [str]
  simp only [List.length_append]
  omega

theorem scanAux_congr : ∀ (f₁ : ℕ) (s : Str) (f₂ : ℕ),
    s.length ≤ f₁ → s.length ≤ f₂ → scanAux f₁ s = scanAux f₂ s := by
  intro f₁
  induction f₁ with
  | zero =>
    intro s f₂ h₁ _
    have : s = [] := List.eq_nil_of_length_eq_zero (Nat.le_zero.mp h₁)
    subst this
    cases f₂ <;> rfl
  | succ f ih =>
    intro s f₂ h₁ h₂
    cases s with
    | nil => cases f₂ <;> rfl
    | cons c t =>
      cases f₂ with
      | zero => simp at h₂
      | succ f₂ =>
        simp only [scanAux]
        cases htm : tryMatch (c :: t) with
        | none =>
          simp only []
          exact ih t f₂ (by simpa using h₁) (by simpa using h₂)
        | some mr =>
          obtain ⟨m, r⟩ := mr
          have hlt := tryMatch_length htm
          simp only [List.length_cons] at hlt h₁ h₂
          simp only []
          rw [ih r f₂ (by omega) (by omega)]

/-- The defining equation of `scanUrls`, fuel eliminated. -/
theorem scanUrls_eq (s : Str) : scanUrls s =
    match tryMatch s with
    | some (m, r) => m :: scanUrls r
    | none => (match s with | [] => [] | _ :: t => scanUrls t) := by
  cases s with
  | nil => rfl
  | cons c t =>
    show scanAux (t.length + 1) (c :: t) = _
    simp only [scanAux]
    cases htm : tryMatch (c :: t) with
    | none => rfl
    | some mr =>
      obtain ⟨m, r⟩ := mr
      have hlt := tryMatch_length htm
      simp only [List.length_cons] at hlt
      show m :: scanAux t.length r = m :: scanUrls r
      rw [scanAux_congr t.length r r.length (by omega) le_rfl]
      rfl

theorem mem_scanAux_spec : ∀ (f : ℕ) (s m : Str), m ∈ scanAux f s →
    ∃ sch b, SchemeStr sch ∧ m = sch ++ b ∧ b ≠ [] ∧
      (∀ c ∈ b, isUrlChar c = true) := by
  intro f
  induction f with
  | zero => intro s m h; simp [scanAux] at h
  | succ f ih =>
    intro s m h
    cases s with
    | nil => simp [scanAux] at h
    | cons c t =>
      simp only [scanAux] at h
      cases htm : tryMatch (c :: t) with
      | none => rw [htm] at h; exact ih t m h
      | some mr =>
        obtain ⟨m₀, r⟩ := mr
        rw [htm] at h
        rcases List.mem_cons.mp h with h | h
        · subst h
          obtain ⟨sch, b, h1, h2, h3, h4, _⟩ := tryMatch_some_spec htm
          exact ⟨sch, b, h1, h2, h3, h4⟩
        · exact ih r m h

theorem mem_scanUrls_spec {s m : Str} (h : m ∈ scanUrls s) :
    ∃ sch b, SchemeStr sch ∧ m = sch ++ b ∧ b ≠ [] ∧
      (∀ c ∈ b, isUrlChar c = true) :=
  mem_scanAux_spec s.length s m h

theorem mem_dedupAux {α : Type} [DecidableEq α] :
    ∀ (l : List α) (seen : List α) (x : α),
    x ∈ dedupAux seen l ↔ x ∈ l ∧ x ∉ seen := by
  intro l
  induction l with
  | nil => intro seen x; simp [dedupAux]
  | cons y l ih =>
    intro seen x
    by_cases hy : y ∈ seen
    · simp only [dedupAux, if_pos hy, ih, List.mem_cons]
      constructor
      · rintro ⟨h1, h2⟩; exact ⟨Or.inr h1, h2⟩
      · rintro ⟨h1 | h1, h2⟩
        · exact absurd (h1 ▸ hy) h2
        · exact ⟨h1, h2⟩
    · simp only [dedupAux, if_neg hy, List.mem_cons, ih, List.mem_cons]
      constructor
      · rintro (rfl | ⟨h1, h2⟩)
        · exact ⟨Or.inl rfl, hy⟩
        · exact ⟨Or.inr h1, fun hx => h2 (Or.inr hx)⟩
      · rintro ⟨rfl | h1, h2⟩
        · exact Or.inl rfl
        · by_cases hxy : x = y
          · exact Or.inl hxy
          · refine Or.inr ⟨h1, fun hx => ?_⟩
            rcases hx with h | h
            · exact hxy h
            · exact h2 h

theorem nodup_dedupAux {α : Type} [DecidableEq α] : ∀ (l : List α) (seen : List α),
    (dedupAux seen l).Nodup := by
  intro l
  induction l with
  | nil => intro seen; simp [dedupAux]
  | cons y l ih =>
    intro seen
    by_cases hy : y ∈ seen
    · simpa [dedupAux, if_pos hy] using ih seen
    · simp only [dedupAux, if_neg hy, List.nodup_cons]
      refine ⟨fun hmem => ?_, ih _⟩
      exact ((mem_dedupAux l (y :: seen) y).mp hmem).2 (List.mem_cons_self _ _)

theorem dedupAux_eq_self {α : Type} [DecidableEq α] : ∀ (l : List α) (seen : List α),
    l.Nodup → (∀ x ∈ l, x ∉ seen) → dedupAux seen l = l := by
  intro l
  induction l with
  | nil => intro seen _ _; rfl
  | cons y l ih =>
    intro seen hnd hs
    have hy : y ∉ seen := hs y (List.mem_cons_self _ _)
    simp only [dedupAux, if_neg hy]
    rw [ih (y :: seen) (List.Nodup.of_cons hnd)]
    intro x hx
    simp only [List.mem_cons]
    rintro (rfl | hmem)
    · exact (List.nodup_cons.mp hnd).1 hx
    · exact hs x (List.mem_cons_of_mem _ hx) hmem

theorem extractSources_nodup (t : Str) : (extractSources t).Nodup :=
  nodup_dedupAux _ _

theorem tryMatch_append_stop {sch b t : Str} (hs : SchemeStr sch) (hb : b ≠ [])
    (hall : ∀ c ∈ b, isUrlChar c = true)
    (ht : t.takeWhile isUrlChar = []) :
    tryMatch (sch ++ (b ++ t)) = some (sch ++ b, t) := by
  have htake : (b ++ t).takeWhile isUrlChar = b := by
    rw [takeWhile_append_all hall, ht, List.append_nil]
  have hdropt : t.dropWhile isUrlChar = t := by
    cases t with
    | nil => rfl
    | cons c t' =>
      simp only [List.takeWhile_cons] at ht
      simp only [List.dropWhile_cons]
      split at ht
      · exact absurd ht (by simp)
      · next hc => simp [hc]
  have hdrop : (b ++ t).dropWhile isUrlChar = t := by
    rw [dropWhile_append_all hall, hdropt]
  have hne : (b ++ t).takeWhile isUrlChar ≠ [] := by rw [htake]; exact hb
  rcases hs with h | h <;> subst h
  · show tryMatch ('h' :: 't' :: 't' :: 'p' :: ':' :: '/' :: '/' :: (b ++ t)) = _
    show (if ((b ++ t).takeWhile isUrlChar).isEmpty then none
      else some (str "http://" ++ (b ++ t).takeWhile isUrlChar,
        (b ++ t).dropWhile isUrlChar)) = _
    rw [htake, hdrop]
    simp [List.isEmpty_iff, hb]
  · show tryMatch ('h' :: 't' :: 't' :: 'p' :: 's' :: ':' :: '/' :: '/' :: (b ++ t)) = _
    show (if ((b ++ t).takeWhile isUrlChar).isEmpty then none
      else some (str "https://" ++ (b ++ t).takeWhile isUrlChar,
        (b ++ t).dropWhile isUrlChar)) = _
    rw [htake, hdrop]
    simp [List.isEmpty_iff, hb]

theorem good_of_mem_extract {t u : Str} (hu : u ∈ extractSources t) : GoodTok u := by
  have h1 : u ∈ ((scanUrls t).map cleanUrl).filter (fun v => v.length > 10) :=
    ((mem_dedupAux _ _ _).mp hu).1
  have h2 := List.of_mem_filter h1
  have h3 := List.mem_of_mem_filter h1
  obtain ⟨m, hm, hcm⟩ := List.mem_map.mp h3
  obtain ⟨sch, b, hsch, hmsb, _, hball⟩ := mem_scanUrls_spec hm
  subst hmsb
  have hclean : cleanUrl (sch ++ b) = sch ++ cleanUrl b := cleanUrl_scheme_append hsch b
  have hub : u = sch ++ cleanUrl b := by rw [← hcm, hclean]
  have hlen : 10 < u.length := by simpa using h2
  have hb2pre : cleanUrl b <+: b := cleanUrl_prefix b
  have hb2all : ∀ c ∈ cleanUrl b, isUrlChar c = true := fun c hc =>
    hball c (hb2pre.subset hc)
  have hschlen : sch.length ≤ 8 := by
    rcases hsch with h | h <;> subst h <;> simp [str]
  have hb2ne : cleanUrl b ≠ [] := by
    intro hnil
    rw [hub, hnil, List.append_nil] at hlen
    omega
  have htm : tryMatch (sch ++ cleanUrl b) = some (sch ++ cleanUrl b, []) := by
    have := tryMatch_append_stop hsch hb2ne hb2all (t := [])
      (by simp [List.takeWhile])
    simpa using this
  refine ⟨by rw [hub]; exact htm, ?_, hlen⟩
  rw [hub, cleanUrl_scheme_append hsch, cleanUrl_idem]

theorem scanUrls_space_cons (s : Str) : scanUrls (' ' :: s) = scanUrls s := by
  rw [scanUrls_eq]
  rfl

theorem goodTok_decomp {g : Str} (hg : GoodTok g) :
    ∃ sch b, SchemeStr sch ∧ g = sch ++ b ∧ b ≠ [] ∧
      (∀ c ∈ b, isUrlChar c = true) := by
  obtain ⟨sch, b, h1, h2, h3, h4, _⟩ := tryMatch_some_spec hg.1
  exact ⟨sch, b, h1, h2, h3, h4⟩

theorem scanUrls_joinSpace : ∀ (L : List Str), (∀ g ∈ L, GoodTok g) →
    scanUrls (joinSpace L) = L := by
  intro L
  induction L with
  | nil => intro _; rfl
  | cons g L ih =>
    intro hL
    have hg : GoodTok g := hL g (List.mem_cons_self _ _)
    obtain ⟨sch, b, hsch, hgsb, hbne, hball⟩ := goodTok_decomp hg
    cases L with
    | nil =>
      show scanUrls g = [g]
      rw [scanUrls_eq, hg.1]
      rfl
    | cons y L' =>
      show scanUrls (g ++ ' ' :: joinSpace (y :: L')) = g :: y :: L'
      have htm : tryMatch (g ++ ' ' :: joinSpace (y :: L')) =
          some (g, ' ' :: joinSpace (y :: L')) := by
        rw [hgsb, List.append_assoc]
        have := tryMatch_append_stop hsch hbne hball
          (t := ' ' :: joinSpace (y :: L')) (by rw [List.takeWhile_cons]; rfl)
        simpa using this
      rw [scanUrls_eq, htm]
      show g :: scanUrls (' ' :: joinSpace (y :: L')) = g :: y :: L'
      rw [scanUrls_space_cons]
      exact congrArg (g :: ·) (ih (fun x hx => hL x (List.mem_cons_of_mem _ hx)))

theorem map_cleanUrl_id {L : List Str} (h : ∀ g ∈ L, cleanUrl g = g) :
    L.map cleanUrl = L := by
  induction L with
  | nil => rfl
  | cons g L ih =>
    simp only [List.map_cons, h g (List.mem_cons_self _ _)]
    rw [ih (fun x hx => h x (List.mem_cons_of_mem _ hx))]

/-! ### Facts about model selection (C9) -/

theorem verLe_refl (a : ℕ × ℕ) : verLe a a = true := by simp [verLe]

theorem parseVer_den_pos (s : Str) : 0 < (parseVer s).2 := by
  unfold parseVer
  split
  · exact pow_pos (by norm_num) _
  · norm_num

theorem extractVersion_den_pos : ∀ s : Str, 0 < (extractVersion s).2 := by
  intro s
  induction s with
  | nil => norm_num [extractVersion]
  | cons c t ih =>
    rw [extractVersion]
    split
    · exact parseVer_den_pos _
    · exact ih

theorem verLt_of_lt_le {u v w : ℕ × ℕ} (hv : 0 < v.2) (hw : 0 < w.2)
    (h1 : verLt u v = true) (h2 : verLe v w = true) : verLt u w = true := by
  simp only [verLt, verLe, decide_eq_true_eq] at *
  nlinarith [mul_lt_mul_of_pos_right h1 hw, mul_le_mul_right' h2 u.2]

theorem verLt_of_le_lt {u v w : ℕ × ℕ} (hu : 0 < u.2) (hv : 0 < v.2)
    (h1 : verLe u v = true) (h2 : verLt v w = true) : verLt u w = true := by
  simp only [verLt, verLe, decide_eq_true_eq] at *
  nlinarith [mul_lt_mul_of_pos_right h2 hu, mul_le_mul_right' h1 w.2]

theorem verLe_trans {u v w : ℕ × ℕ} (hv : 0 < v.2)
    (h1 : verLe u v = true) (h2 : verLe v w = true) : verLe u w = true := by
  simp only [verLe, decide_eq_true_eq] at *
  have k1 : u.1 * v.2 * w.2 ≤ v.1 * u.2 * w.2 := mul_le_mul_right' h1 w.2
  have k2 : v.1 * w.2 * u.2 ≤ w.1 * v.2 * u.2 := mul_le_mul_right' h2 u.2
  have k3 : u.1 * w.2 * v.2 ≤ w.1 * u.2 * v.2 := by nlinarith
  exact Nat.le_of_mul_le_mul_right k3 hv

theorem verEq_symm {u v : ℕ × ℕ} (h : verEq u v = true) : verEq v u = true := by
  simp only [verEq, decide_eq_true_eq] at *
  omega

theorem verEq_not_lt {u w : ℕ × ℕ} (h : verEq u w = true) :
    verLt u w = false ∧ verLt w u = false := by
  simp only [verEq, verLt, decide_eq_true_eq, decide_eq_false_iff_not] at *
  omega

theorem verEq_trans {u v w : ℕ × ℕ} (hv : 0 < v.2)
    (h1 : verEq u v = true) (h2 : verEq v w = true) : verEq u w = true := by
  simp only [verEq, decide_eq_true_eq] at *
  have : u.1 * w.2 * v.2 = w.1 * u.2 * v.2 := by nlinarith
  exact Nat.eq_of_mul_eq_mul_right hv this

theorem verEq_of_le_le {u v : ℕ × ℕ} (h1 : verLe u v = true)
    (h2 : verLe v u = true) : verEq u v = true := by
  simp only [verLe, verEq, decide_eq_true_eq] at *
  omega

theorem verLe_of_eq {u v : ℕ × ℕ} (h : verEq u v = true) : verLe u v = true := by
  simp only [verEq, verLe, decide_eq_true_eq] at *
  omega

theorem verLe_of_lt {u v : ℕ × ℕ} (h : verLt u v = true) : verLe u v = true := by
  simp only [verLt, verLe, decide_eq_true_eq] at *
  omega

/-- A rejected candidate is version-no-higher than the kept one. -/
theorem betterThan_false_le {x b : ModelInfo} (h : betterThan x b = false) :
    verLe (extractVersion x.name) (extractVersion b.name) = true := by
  unfold betterThan at h
  split at h
  · next heq => exact verLe_of_eq heq
  · simp only [verLt, verLe, decide_eq_false_iff_not, decide_eq_true_eq] at h ⊢
    omega

/-- A winning candidate is version-no-lower than the replaced one. -/
theorem betterThan_true_le {x b : ModelInfo} (h : betterThan x b = true) :
    verLe (extractVersion b.name) (extractVersion x.name) = true := by
  unfold betterThan at h
  split at h
  · next heq => exact verLe_of_eq (verEq_symm heq)
  · exact verLe_of_lt h

/-- A win on unequal versions is a strict version win. -/
theorem betterThan_true_lt {x b : ModelInfo} (h : betterThan x b = true)
    (hne : verEq (extractVersion x.name) (extractVersion b.name) = false) :
    verLt (extractVersion b.name) (extractVersion x.name) = true := by
  unfold betterThan at h
  split at h
  · next heq => rw [heq] at hne; cases hne
  · exact h

/-- A win on equal versions means the winner is flash and the loser not. -/
theorem betterThan_true_flash {x b : ModelInfo} (h : betterThan x b = true)
    (heq : verEq (extractVersion x.name) (extractVersion b.name) = true) :
    isFlash x.name = true ∧ isFlash b.name = false := by
  unfold betterThan at h
  rw [if_pos heq] at h
  simpa using h

/-- A loss on equal versions: if the loser is flash, so is the keeper. -/
theorem betterThan_false_flash {x b : ModelInfo} (h : betterThan x b = false)
    (heq : verEq (extractVersion x.name) (extractVersion b.name) = true)
    (hfx : isFlash x.name = true) : isFlash b.name = true := by
  unfold betterThan at h
  rw [if_pos heq] at h
  simp only [Bool.and_eq_false_iff, hfx, Bool.not_eq_false'] at h
  rcases h with h | h
  · cases h
  · exact h

/-- A loss on unequal versions is a strict version loss. -/
theorem betterThan_false_lt {x b : ModelInfo} (h : betterThan x b = false)
    (hne : verEq (extractVersion x.name) (extractVersion b.name) = false) :
    verLt (extractVersion x.name) (extractVersion b.name) = true := by
  unfold betterThan at h
  split at h
  · next heq => rw [heq] at hne; cases hne
  · simp only [verLt, verEq, decide_eq_false_iff_not, decide_eq_true_eq] at h hne ⊢
    omega

theorem pickBest_cons (m x : ModelInfo) (rest : List ModelInfo) :
    pickBest m (x :: rest) = pickBest (if betterThan x m then x else m) rest := rfl

theorem pickBest_mem : ∀ (rest : List ModelInfo) (m : ModelInfo),
    pickBest m rest ∈ m :: rest := by
  intro rest
  induction rest with
  | nil => intro m; exact List.mem_cons_self _ _
  | cons x rest ih =>
    intro m
    rw [pickBest_cons]
    rcases List.mem_cons.mp (ih (if betterThan x m then x else m)) with h | h
    · rw [h]
      by_cases hbt : betterThan x m = true
      · rw [if_pos hbt]
        exact List.mem_cons_of_mem _ (List.mem_cons_self _ _)
      · rw [if_neg hbt]
        exact List.mem_cons_self _ _
    · exact List.mem_cons_of_mem _ (List.mem_cons_of_mem _ h)

theorem pickBest_version_max : ∀ (rest : List ModelInfo) (m : ModelInfo),
    ∀ y ∈ m :: rest,
      verLe (extractVersion y.name) (extractVersion (pickBest m rest).name) = true := by
  intro rest
  induction rest with
  | nil =>
    intro m y hy
    rcases List.mem_cons.mp hy with h | h
    · rw [h]; exact verLe_refl _
    · cases h
  | cons x rest ih =>
    intro m y hy
    rw [pickBest_cons]
    by_cases hbt : betterThan x m = true
    · rw [if_pos hbt] at *
      rcases List.mem_cons.mp hy with h | h
      · rw [h]
        refine verLe_trans (extractVersion_den_pos x.name) (betterThan_true_le hbt) ?_
        exact ih x x (List.mem_cons_self _ _)
      · exact ih x y h
    · rw [if_neg hbt] at *
      rcases List.mem_cons.mp hy with h | h
      · rw [h]; exact ih m m (List.mem_cons_self _ _)
      · rcases List.mem_cons.mp h with h' | h'
        · rw [h']
          refine verLe_trans (extractVersion_den_pos m.name)
            (betterThan_false_le (Bool.eq_false_iff.mpr hbt)) ?_
          exact ih m m (List.mem_cons_self _ _)
        · exact ih m y (List.mem_cons_of_mem _ h')

theorem pickBest_flash : ∀ (rest : List ModelInfo) (m : ModelInfo),
    ∀ y ∈ m :: rest,
      verEq (extractVersion y.name) (extractVersion (pickBest m rest).name) = true →
      isFlash y.name = true → isFlash (pickBest m rest).name = true := by
  intro rest
  induction rest with
  | nil =>
    intro m y hy _ hf
    rcases List.mem_cons.mp hy with h | h
    · rw [← h]; exact hf
    · cases h
  | cons x rest ih =>
    intro m y hy heq hf
    rw [pickBest_cons] at *
    by_cases hbt : betterThan x m = true
    · rw [if_pos hbt] at *
      rcases List.mem_cons.mp hy with h | h
      · subst h
        by_cases hvq : verEq (extractVersion x.name) (extractVersion y.name) = true
        · obtain ⟨hfx, _⟩ := betterThan_true_flash hbt hvq
          exact ih x x (List.mem_cons_self _ _)
            (verEq_trans (extractVersion_den_pos y.name) hvq heq) hfx
        · have hlt : verLt (extractVersion y.name) (extractVersion x.name) = true :=
            betterThan_true_lt hbt (Bool.eq_false_iff.mpr hvq)
          have hle : verLe (extractVersion x.name)
              (extractVersion (pickBest x rest).name) = true :=
            pickBest_version_max rest x x (List.mem_cons_self _ _)
          have := verLt_of_lt_le (extractVersion_den_pos x.name)
            (extractVersion_den_pos (pickBest x rest).name) hlt hle
          rw [(verEq_not_lt heq).1] at this
          cases this
      · exact ih x y h heq hf
    · rw [if_neg hbt] at *
      rcases List.mem_cons.mp hy with h | h
      · subst h; exact ih y y (List.mem_cons_self _ _) heq hf
      · rcases List.mem_cons.mp h with h' | h'
        · subst h'
          by_cases hvq : verEq (extractVersion y.name) (extractVersion m.name) = true
          · have hfm : isFlash m.name = true :=
              betterThan_false_flash (Bool.eq_false_iff.mpr hbt) hvq hf
            exact ih m m (List.mem_cons_self _ _)
              (verEq_trans (extractVersion_den_pos y.name) (verEq_symm hvq) heq) hfm
          · have hlt : verLt (extractVersion y.name) (extractVersion m.name) = true :=
              betterThan_false_lt (Bool.eq_false_iff.mpr hbt)
                (Bool.eq_false_iff.mpr hvq)
            have hle : verLe (extractVersion m.name)
                (extractVersion (pickBest m rest).name) = true :=
              pickBest_version_max rest m m (List.mem_cons_self _ _)
            have := verLt_of_lt_le (extractVersion_den_pos m.name)
              (extractVersion_den_pos (pickBest m rest).name) hlt hle
            rw [(verEq_not_lt heq).1] at this
            cases this
        · exact ih m y (List.mem_cons_of_mem _ h') heq hf

theorem surviving_subset (aE : Bool) (g : List ModelInfo) :
    ∀ x ∈ surviving aE g, x ∈ g := by
  intro x hx
  unfold surviving at hx
  split at hx
  · exact hx
  · split at hx
    · exact hx
    · exact List.mem_of_mem_filter hx

theorem surviving_ne_nil (aE : Bool) {g : List ModelInfo} (hg : g ≠ []) :
    surviving aE g ≠ [] := by
  unfold surviving
  split
  · exact hg
  · split
    · exact hg
    · next hne => simpa [List.isEmpty_iff] using hne

theorem surviving_stable {g : List ModelInfo}
    (hst : ∃ x ∈ g, isStable x.name = true) :
    ∀ x ∈ surviving false g, isStable x.name = true := by
  intro x hx
  obtain ⟨z, hz, hzs⟩ := hst
  unfold surviving at hx
  simp only [Bool.false_eq_true, if_false] at hx
  split at hx
  · next hemp =>
    exfalso
    have : z ∈ g.filter (fun m => isStable m.name) :=
      List.mem_filter.mpr ⟨hz, hzs⟩
    rw [List.isEmpty_iff.mp hemp] at this
    cases this
  · exact (List.mem_filter.mp hx).2

/-! ### Facts about the research loop (C1, C2, C3, C10) -/

theorem researchBudget_eq_floor (w : ℕ) :
    researchBudget w = ⌊(w : ℚ) * 0.75⌋ := by
  have hq : (w : ℚ) * 0.75 = ((w * 3 : ℕ) : ℚ) / 4 := by
    push_cast
    ring
  rw [researchBudget, hq]
  symm
  rw [Int.floor_eq_iff]
  constructor
  · rw [le_div_iff (by norm_num : (0 : ℚ) < 4)]
    have h : w * 3 / 4 * 4 ≤ w * 3 := by omega
    exact_mod_cast h
  · rw [div_lt_iff (by norm_num : (0 : ℚ) < 4)]
    have h : w * 3 < (w * 3 / 4 + 1) * 4 := by omega
    push_cast
    exact_mod_cast h

theorem synthesisReserve_eq_floor (w : ℕ) :
    synthesisReserve w = ⌊(w : ℚ) * 0.20⌋ := by
  have hq : (w : ℚ) * 0.20 = ((w : ℕ) : ℚ) / 5 := by
    push_cast
    ring
  rw [synthesisReserve, hq]
  symm
  rw [Int.floor_eq_iff]
  constructor
  · rw [le_div_iff (by norm_num : (0 : ℚ) < 5)]
    have h : w / 5 * 5 ≤ w := by omega
    exact_mod_cast h
  · rw [div_lt_iff (by norm_num : (0 : ℚ) < 5)]
    have h : w < (w / 5 + 1) * 5 := by omega
    push_cast
    exact_mod_cast h

/-- The abort constructor only arises with an empty step list, which it
preserves. -/
theorem runIter_ok_eq {cfg : RunCfg} {oracle : Oracle} {i : ℕ} {st : LoopState}
    {r : ChatSuccess} (h : oracle.research i = .ok r) :
    runIter cfg oracle i st =
      .cont { report := st.report ++ iterHeader cfg i ++ r.content ++ str "\n\n",
              steps := st.steps ++ [⟨iterPrompt cfg st i, r.content,
                extractSources r.content, r.usage.getD 0⟩],
              cumulativeTokens := st.cumulativeTokens + r.usage.getD 0,
              consecutiveFailures := 0,
              calls := st.calls ++ [i] } := by
  unfold runIter
  rw [h]

theorem runIter_fail_eq {cfg : RunCfg} {oracle : Oracle} {i : ℕ} {st : LoopState}
    {e : Str} (h : oracle.research i = .fail e) :
    runIter cfg oracle i st =
      (if 2 ≤ st.consecutiveFailures + 1 ∧ st.steps = [] then
        .abortRIF { st with
          consecutiveFailures := st.consecutiveFailures + 1,
          calls := st.calls ++ [i],
          report := st.report ++ iterHeader cfg i }
      else
        .cont { st with
          consecutiveFailures := st.consecutiveFailures + 1,
          calls := st.calls ++ [i],
          report := st.report ++ iterHeader cfg i ++ failNote i e }) := by
  unfold runIter
  rw [h]

theorem runIter_abort_steps {cfg : RunCfg} {oracle : Oracle} {i : ℕ}
    {st st' : LoopState} (h : runIter cfg oracle i st = .abortRIF st') :
    st'.steps = [] := by
  cases ho : oracle.research i with
  | ok r => rw [runIter_ok_eq ho] at h; cases h
  | fail e =>
    rw [runIter_fail_eq ho] at h
    by_cases hc : 2 ≤ st.consecutiveFailures + 1 ∧ st.steps = []
    · rw [if_pos hc] at h
      cases h
      exact hc.2
    · rw [if_neg hc] at h
      cases h

theorem runLoop_abort_steps {cfg : RunCfg} {oracle : Oracle} :
    ∀ (rem i : ℕ) (st st' : LoopState),
    runLoop cfg oracle i rem st = .aborted st' → st'.steps = [] := by
  intro rem
  induction rem with
  | zero => intro i st st' h; cases h
  | succ rem ih =>
    intro i st st' h
    rw [runLoop] at h
    split at h
    · cases h
    · cases hit : runIter cfg oracle i st with
      | cont st₁ => rw [hit] at h; exact ih (i + 1) st₁ st' h
      | abortRIF st₁ =>
        rw [hit] at h
        cases h
        exact runIter_abort_steps hit

theorem finishRun_finalSteps (cfg : RunCfg) (oracle : Oracle) (st : LoopState) :
    (finishRun cfg oracle st).finalSteps = st.steps := by
  unfold finishRun
  split
  · rfl
  · split
    · cases oracle.synth <;> rfl
    · rfl

theorem finishRun_ok_of_steps {cfg : RunCfg} {oracle : Oracle} {st : LoopState}
    (h : st.steps ≠ []) : ∃ rep, (finishRun cfg oracle st).result = .ok rep := by
  unfold finishRun
  rw [if_neg h]
  split
  · cases oracle.synth <;> exact ⟨_, rfl⟩
  · exact ⟨_, rfl⟩

theorem finishRun_report_suffix {cfg : RunCfg} {oracle : Oracle} {st : LoopState}
    {rep : Str} (h : (finishRun cfg oracle st).result = .ok rep) :
    ∃ suffix, rep = st.report ++ suffix := by
  unfold finishRun at h
  split at h
  · cases h
  · split at h
    · cases ho : oracle.synth with
      | ok r =>
        rw [ho] at h
        simp only [RunResult.ok.injEq] at h
        refine ⟨synthHeaderStr ++ r.content ++ str "\n\n" ++
          sourcesSection st.steps ++
          footerStr cfg st.steps.length (st.cumulativeTokens + r.usage.getD 0), ?_⟩
        rw [← h]
        simp [List.append_assoc]
      | fail e =>
        rw [ho] at h
        simp only [RunResult.ok.injEq] at h
        refine ⟨synthHeaderStr ++ synthFailNote e ++ synthPlaceholder ++
          str "\n\n" ++ sourcesSection st.steps ++
          footerStr cfg st.steps.length st.cumulativeTokens, ?_⟩
        rw [← h]
        simp [List.append_assoc]
    · simp only [RunResult.ok.injEq] at h
      refine ⟨sourcesSection st.steps ++
        footerStr cfg st.steps.length st.cumulativeTokens, ?_⟩
      rw [← h]
      simp [List.append_assoc]

theorem runResearch_aborted {cfg : RunCfg} {oracle : Oracle} {st : LoopState}
    (h : runLoop cfg oracle 0 (effIterations cfg.maxIterationsRaw).toNat
      (initState cfg (effIterations cfg.maxIterationsRaw).toNat) = .aborted st) :
    runResearch cfg oracle =
      { result := .err (str "RESEARCH_ITERATIONS_FAILING"), finalSteps := st.steps,
        calls := st.calls, cumAtLoopEnd := st.cumulativeTokens,
        synthBudget := none, synthContext := none } := by
  unfold runResearch
  rw [h]

theorem runResearch_finished {cfg : RunCfg} {oracle : Oracle} {st : LoopState}
    {b : Bool}
    (h : runLoop cfg oracle 0 (effIterations cfg.maxIterationsRaw).toNat
      (initState cfg (effIterations cfg.maxIterationsRaw).toNat) = .finished st b) :
    runResearch cfg oracle = finishRun cfg oracle st := by
  unfold runResearch
  rw [h]

/-- C1: at the top of any pass with at least one iteration left, an
exhausted budget (`cumulativeTokens ≥ researchBudget`) ends the loop at
once: the returned state is the incoming one with only the early-stop note
appended to the report (in particular no backend call is recorded for this
or any later iteration, since `calls` is unchanged), flagged as a budget
stop rather than an abort; a run whose loop recorded at least one step
returns a success result, and post-loop phases only append to the report
(so the note stays in the final report); `researchBudget` is
`floor(contextWindow * 0.75)`. -/
theorem claim1 :
    (∀ (cfg : RunCfg) (oracle : Oracle) (i rem : ℕ) (st : LoopState),
      0 < rem →
      researchBudget cfg.contextWindow ≤ (st.cumulativeTokens : ℤ) →
      runLoop cfg oracle i rem st =
        .finished { st with report := st.report ++ budgetNote (i + 1) } true) ∧
    (∀ (cfg : RunCfg) (oracle : Oracle),
      (runResearch cfg oracle).finalSteps ≠ [] →
      ∃ rep, (runResearch cfg oracle).result = .ok rep) ∧
    (∀ (cfg : RunCfg) (oracle : Oracle) (st : LoopState) (rep : Str),
      (finishRun cfg oracle st).result = .ok rep →
      ∃ suffix, rep = st.report ++ suffix) ∧
    (∀ w : ℕ, researchBudget w = ⌊(w : ℚ) * 0.75⌋) := by
  refine ⟨?_, ?_, ?_, researchBudget_eq_floor⟩
  · intro cfg oracle i rem st hrem hb
    cases rem with
    | zero => omega
    | succ r => rw [runLoop, if_pos hb]
  · intro cfg oracle hne
    cases hL : runLoop cfg oracle 0 (effIterations cfg.maxIterationsRaw).toNat
        (initState cfg (effIterations cfg.maxIterationsRaw).toNat) with
    | aborted st =>
      rw [runResearch_aborted hL] at hne
      exact absurd (runLoop_abort_steps _ 0 _ st hL) hne
    | finished st b =>
      rw [runResearch_finished hL] at hne ⊢
      refine finishRun_ok_of_steps ?_
      rw [← finishRun_finalSteps cfg oracle st]
      exact hne
  · intro cfg oracle st rep h
    exact finishRun_report_suffix h

/-- Witness for C1: a state over budget ends the loop with exactly the
note appended. -/
theorem claim1_witness :
    runLoop ⟨str "q", str "m", [], none, 8⟩ ⟨fun _ => .fail (str "e"), .fail (str "e")⟩
        2 3 ⟨str "R", [], 999, 0, []⟩ =
      .finished ⟨str "R" ++ budgetNote 3, [], 999, 0, []⟩ true :=
  (claim1.1 ⟨str "q", str "m", [], none, 8⟩ _ 2 3 ⟨str "R", [], 999, 0, []⟩
    (by decide) (by decide))

theorem runLoop_step_cont {cfg : RunCfg} {oracle : Oracle} {i rem : ℕ}
    {st st₁ : LoopState}
    (hguard : ¬ researchBudget cfg.contextWindow ≤ (st.cumulativeTokens : ℤ))
    (hit : runIter cfg oracle i st = .cont st₁) :
    runLoop cfg oracle i (rem + 1) st = runLoop cfg oracle (i + 1) rem st₁ := by
  rw [runLoop, if_neg hguard, hit]

theorem runLoop_step_abort {cfg : RunCfg} {oracle : Oracle} {i rem : ℕ}
    {st st₁ : LoopState}
    (hguard : ¬ researchBudget cfg.contextWindow ≤ (st.cumulativeTokens : ℤ))
    (hit : runIter cfg oracle i st = .abortRIF st₁) :
    runLoop cfg oracle i (rem + 1) st = .aborted st₁ := by
  rw [runLoop, if_neg hguard, hit]

/-- The fail-fast path: from a state with no recorded steps and no running
failure streak, two consecutive backend failures abort with exactly those
two calls recorded. -/
theorem loop_two_failures {cfg : RunCfg} {oracle : Oracle} {i rem : ℕ}
    {st : LoopState} {e1 e2 : Str}
    (hrem : 2 ≤ rem) (hsteps : st.steps = []) (hcf : st.consecutiveFailures = 0)
    (hcum : (st.cumulativeTokens : ℤ) < researchBudget cfg.contextWindow)
    (h1 : oracle.research i = .fail e1) (h2 : oracle.research (i + 1) = .fail e2) :
    ∃ st', runLoop cfg oracle i rem st = .aborted st' ∧
      st'.calls = st.calls ++ [i, i + 1] ∧ st'.steps = [] := by
  obtain ⟨r, rfl⟩ : ∃ r, rem = r + 2 := ⟨rem - 2, by omega⟩
  obtain ⟨st₁, hit1, hcum1, hsteps1, hcf1, hcalls1⟩ :
      ∃ st₁, runIter cfg oracle i st = .cont st₁ ∧
        st₁.cumulativeTokens = st.cumulativeTokens ∧ st₁.steps = [] ∧
        st₁.consecutiveFailures = st.consecutiveFailures + 1 ∧
        st₁.calls = st.calls ++ [i] := by
    rw [runIter_fail_eq h1, if_neg (fun h => by have := h.1; omega)]
    exact ⟨_, rfl, rfl, hsteps, rfl, rfl⟩
  obtain ⟨st₂, hit2, hcalls2, hsteps2⟩ :
      ∃ st₂, runIter cfg oracle (i + 1) st₁ = .abortRIF st₂ ∧
        st₂.calls = st₁.calls ++ [i + 1] ∧ st₂.steps = st₁.steps := by
    rw [runIter_fail_eq h2, if_pos ⟨by omega, hsteps1⟩]
    exact ⟨_, rfl, rfl, rfl⟩
  refine ⟨st₂, ?_, ?_, ?_⟩
  · rw [show r + 2 = r + 1 + 1 from rfl,
      runLoop_step_cont (not_le.mpr hcum) hit1,
      runLoop_step_abort (by rw [hcum1]; exact not_le.mpr hcum) hit2]
  · rw [hcalls2, hcalls1, List.append_assoc]
    rfl
  · rw [hsteps2, hsteps1]

/-- C2: two consecutive backend failures with zero recorded steps abort
the loop with the classified `RESEARCH_ITERATIONS_FAILING` error before a
third call; a fresh run whose first two calls fail ends as that classified
failure with exactly the calls `[0, 1]` issued. -/
theorem claim2 :
    (∀ (cfg : RunCfg) (oracle : Oracle) (i rem : ℕ) (st : LoopState) (e1 e2 : Str),
      2 ≤ rem → st.steps = [] → st.consecutiveFailures = 0 →
      (st.cumulativeTokens : ℤ) < researchBudget cfg.contextWindow →
      oracle.research i = .fail e1 → oracle.research (i + 1) = .fail e2 →
      ∃ st', runLoop cfg oracle i rem st = .aborted st' ∧
        st'.calls = st.calls ++ [i, i + 1] ∧ st'.steps = []) ∧
    (∀ (cfg : RunCfg) (oracle : Oracle) (e1 e2 : Str),
      2 ≤ (effIterations cfg.maxIterationsRaw).toNat →
      0 < researchBudget cfg.contextWindow →
      oracle.research 0 = .fail e1 → oracle.research 1 = .fail e2 →
      (runResearch cfg oracle).result = .err (str "RESEARCH_ITERATIONS_FAILING") ∧
      (runResearch cfg oracle).calls = [0, 1]) := by
  refine ⟨fun cfg oracle i rem st e1 e2 h1 h2 h3 h4 h5 h6 =>
    loop_two_failures h1 h2 h3 h4 h5 h6, ?_⟩
  intro cfg oracle e1 e2 hiter hbud h1 h2
  obtain ⟨st', hL, hcalls, _⟩ :=
    @loop_two_failures cfg oracle 0 _
      (initState cfg (effIterations cfg.maxIterationsRaw).toNat) e1 e2
      hiter rfl rfl (by simpa [initState] using hbud) h1 (by simpa using h2)
  rw [runResearch_aborted hL]
  exact ⟨rfl, by simpa [initState] using hcalls⟩

/-- Witness for C2: a fresh run with both first calls failing. -/
theorem claim2_witness :
    (runResearch ⟨str "q", str "m", [], none, 32000⟩
        ⟨fun _ => .fail (str "boom"), .fail (str "x")⟩).result =
      .err (str "RESEARCH_ITERATIONS_FAILING") ∧
    (runResearch ⟨str "q", str "m", [], none, 32000⟩
        ⟨fun _ => .fail (str "boom"), .fail (str "x")⟩).calls = [0, 1] :=
  claim2.2 ⟨str "q", str "m", [], none, 32000⟩
    ⟨fun _ => .fail (str "boom"), .fail (str "x")⟩ (str "boom") (str "boom")
    (by decide) (by decide) rfl rfl

/-- C3: a deep-research run fails exactly when zero research steps
succeeded; a backend failure on an iteration while at least one step is
recorded merely continues the loop; and the post-loop phase returns a
success result whenever at least one step is recorded, whatever the
synthesis outcome (a synthesis failure never fails the run). -/
theorem claim3 :
    (∀ (cfg : RunCfg) (oracle : Oracle),
      (∃ c, (runResearch cfg oracle).result = .err c) ↔
        (runResearch cfg oracle).finalSteps = []) ∧
    (∀ (cfg : RunCfg) (oracle : Oracle) (i : ℕ) (st : LoopState) (e : Str),
      oracle.research i = .fail e → st.steps ≠ [] →
      ∃ st', runIter cfg oracle i st = .cont st') ∧
    (∀ (cfg : RunCfg) (oracle : Oracle) (st : LoopState),
      st.steps ≠ [] → ∃ rep, (finishRun cfg oracle st).result = .ok rep) := by
  refine ⟨?_, ?_, fun cfg oracle st h => finishRun_ok_of_steps h⟩
  · intro cfg oracle
    cases hL : runLoop cfg oracle 0 (effIterations cfg.maxIterationsRaw).toNat
        (initState cfg (effIterations cfg.maxIterationsRaw).toNat) with
    | aborted st =>
      rw [runResearch_aborted hL]
      exact ⟨fun _ => runLoop_abort_steps _ 0 _ st hL, fun _ => ⟨_, rfl⟩⟩
    | finished st b =>
      rw [runResearch_finished hL, finishRun_finalSteps]
      constructor
      · rintro ⟨c, hc⟩
        by_contra hne
        obtain ⟨rep, hrep⟩ := @finishRun_ok_of_steps cfg oracle st hne
        rw [hrep] at hc
        cases hc
      · intro hnil
        refine ⟨str "ALL_ITERATIONS_FAILED", ?_⟩
        unfold finishRun
        rw [if_pos hnil]
  · intro cfg oracle i st e hf hne
    rw [runIter_fail_eq hf, if_neg (fun h => hne h.2)]
    exact ⟨_, rfl⟩

/-- Witness for C3 at a concrete all-failing run (zero steps, failed
result) — both directions of the equivalence hold by the theorem. -/
theorem claim3_witness :
    ((∃ c, (runResearch ⟨str "q", str "m", [], none, 32000⟩
        ⟨fun _ => .fail (str "boom"), .fail (str "x")⟩).result = .err c) ↔
      (runResearch ⟨str "q", str "m", [], none, 32000⟩
        ⟨fun _ => .fail (str "boom"), .fail (str "x")⟩).finalSteps = []) :=
  claim3.1 ⟨str "q", str "m", [], none, 32000⟩
    ⟨fun _ => .fail (str "boom"), .fail (str "x")⟩

/-- C10: when the backend call of an iteration fails, the resulting state —
whether the guard aborts or the loop continues — keeps `cumulativeTokens`
and the recorded step sequence exactly as they were, increments the
consecutive-failure counter by one, only appends text to the report, and
records exactly this one call. -/
theorem claim10 :
    ∀ (cfg : RunCfg) (oracle : Oracle) (i : ℕ) (st : LoopState) (e : Str),
      oracle.research i = .fail e →
      ∃ st' txt,
        (runIter cfg oracle i st = .cont st' ∨
          runIter cfg oracle i st = .abortRIF st') ∧
        st'.cumulativeTokens = st.cumulativeTokens ∧
        st'.steps = st.steps ∧
        st'.consecutiveFailures = st.consecutiveFailures + 1 ∧
        st'.report = st.report ++ txt ∧
        st'.calls = st.calls ++ [i] := by
  intro cfg oracle i st e hf
  rw [runIter_fail_eq hf]
  by_cases hc : 2 ≤ st.consecutiveFailures + 1 ∧ st.steps = []
  · rw [if_pos hc]
    exact ⟨_, iterHeader cfg i, Or.inr rfl, rfl, rfl, rfl, rfl, rfl⟩
  · rw [if_neg hc]
    exact ⟨_, iterHeader cfg i ++ failNote i e, Or.inl rfl, rfl, rfl, rfl,
      by simp [List.append_assoc], rfl⟩

/-- Witness for C10 at a concrete failing iteration. -/
theorem claim10_witness :
    ∃ st' txt,
      (runIter ⟨str "q", str "m", [], none, 32000⟩
          ⟨fun _ => .fail (str "boom"), .fail (str "x")⟩ 0
          ⟨str "R", [], 7, 0, []⟩ = .cont st' ∨
        runIter ⟨str "q", str "m", [], none, 32000⟩
          ⟨fun _ => .fail (str "boom"), .fail (str "x")⟩ 0
          ⟨str "R", [], 7, 0, []⟩ = .abortRIF st') ∧
      st'.cumulativeTokens = 7 ∧
      st'.steps = [] ∧
      st'.consecutiveFailures = 0 + 1 ∧
      st'.report = str "R" ++ txt ∧
      st'.calls = [] ++ [0] :=
  claim10 ⟨str "q", str "m", [], none, 32000⟩
    ⟨fun _ => .fail (str "boom"), .fail (str "x")⟩ 0
    ⟨str "R", [], 7, 0, []⟩ (str "boom") rfl

/-! ### Facts about the context compactor (C5, C6) -/

theorem charTotal_nil : charTotal [] = 0 := rfl

theorem charTotal_cons (x : Str) (l : List Str) :
    charTotal (x :: l) = x.length + charTotal l := by
  simp [charTotal]

theorem charTotal_reverse (l : List Str) : charTotal l.reverse = charTotal l := by
  unfold charTotal
  rw [List.map_reverse, List.sum_reverse]

/-- What the descending accumulation loop computes: some prefix of the
walked (reversed) list is included whole — each summary entirely or not at
all — the included summaries fit the character budget, and the first
excluded summary (when one exists) would overflow it. -/
theorem smartGo_spec :
    ∀ (L : List (ℕ × ResearchStep)) (mc : ℚ) (cur : ℕ) (ctx : Str),
    ∃ p, p ≤ L.length ∧
      smartGo L mc cur ctx =
        (((L.take p).map (fun q => stepSummary q.1 q.2.response)).reverse).flatten
          ++ ctx ∧
      (0 < p →
        ((cur + charTotal ((L.take p).map
          (fun q => stepSummary q.1 q.2.response)) : ℕ) : ℚ) ≤ mc) ∧
      (p < L.length →
        ((cur + charTotal ((L.take (p + 1)).map
          (fun q => stepSummary q.1 q.2.response)) : ℕ) : ℚ) > mc) := by
  intro L
  induction L with
  | nil =>
    intro mc cur ctx
    exact ⟨0, le_rfl, by simp [smartGo], by omega, by simp⟩
  | cons q rest ih =>
    intro mc cur ctx
    obtain ⟨i, s⟩ := q
    by_cases hstop : ((cur + (stepSummary i s.response).length : ℕ) : ℚ) > mc
    · refine ⟨0, Nat.zero_le _, ?_, by omega, ?_⟩
      · rw [smartGo, if_pos hstop]
        simp
      · intro _
        simpa [charTotal_cons, charTotal_nil] using hstop
    · obtain ⟨p', hp'le, hEq, h2, h3⟩ :=
        ih mc (cur + (stepSummary i s.response).length)
          (stepSummary i s.response ++ ctx)
      refine ⟨p' + 1, by simpa using hp'le, ?_, ?_, ?_⟩
      · rw [smartGo, if_neg hstop, hEq]
        simp [List.flatten_append, List.append_assoc]
      · intro _
        rcases Nat.eq_zero_or_pos p' with hp0 | hp0
        · subst hp0
          push_neg at hstop
          simpa [charTotal_cons, charTotal_nil] using hstop
        · have := h2 hp0
          rw [List.take_succ_cons, List.map_cons, charTotal_cons]
          push_cast at this ⊢
          linarith
      · intro hlt
        have := h3 (by simpa using hlt)
        rw [List.take_succ_cons, List.map_cons, charTotal_cons]
        push_cast at this ⊢
        linarith

/-- C5: the recency-biased context is the concatenation of a cut suffix of
the per-step summaries (each summary included whole, never truncated
mid-summary — a step past the cut-off is omitted entirely); when any step
is included, the included summaries' total length fits within
`maxTokens × 0.8 × 4` characters, and when any step is excluded, including
one step more would overflow that budget.  Determinism is inherent: the
construction is a pure function of the step list and the remaining
budget. -/
theorem claim5 (steps : List ResearchStep) (mt : ℤ) :
    ∃ k, k ≤ steps.length ∧
      buildSmartContext steps mt = ((summaries steps).drop k).flatten ∧
      (k < steps.length →
        ((charTotal ((summaries steps).drop k) : ℕ) : ℚ) ≤ smartMaxChars mt) ∧
      (0 < k →
        ((charTotal ((summaries steps).drop (k - 1)) : ℕ) : ℚ) > smartMaxChars mt) := by
  by_cases hnil : steps.isEmpty
  · refine ⟨0, Nat.zero_le _, ?_, ?_, by omega⟩
    · rw [buildSmartContext, if_pos hnil]
      rw [List.isEmpty_iff.mp hnil]
      rfl
    · intro h
      rw [List.isEmpty_iff.mp hnil] at h
      simp at h
  · obtain ⟨p, hple, hEq, h2, h3⟩ :=
      smartGo_spec steps.enum.reverse (smartMaxChars mt) 0 []
    rw [List.length_reverse, List.enum_length] at hple
    have htake : ∀ m : ℕ, steps.enum.reverse.take m =
        (steps.enum.drop (steps.length - m)).reverse := by
      intro m
      rw [List.take_reverse, List.enum_length]
    have hmapdrop : ∀ m : ℕ,
        ((steps.enum.drop m).map (fun q => stepSummary q.1 q.2.response)) =
          (summaries steps).drop m := by
      intro m
      rw [summaries, List.map_drop]
    refine ⟨steps.length - p, Nat.sub_le _ _, ?_, ?_, ?_⟩
    · rw [buildSmartContext, if_neg hnil, hEq, htake p, List.map_reverse,
        List.reverse_reverse, hmapdrop, List.append_nil]
    · intro hk
      have hp0 : 0 < p := by omega
      have := h2 hp0
      rw [htake p, List.map_reverse, charTotal_reverse, hmapdrop] at this
      simpa using this
    · intro hk
      have hplt : p < steps.length := by omega
      have := h3 (by rw [List.length_reverse, List.enum_length]; omega)
      rw [htake (p + 1), List.map_reverse, charTotal_reverse, hmapdrop] at this
      have hidx : steps.length - (p + 1) = steps.length - p - 1 := by omega
      rw [hidx] at this
      simpa using this

theorem maxCharsPerStep_toNat_zero {steps : List ResearchStep} {mt : ℤ}
    (hmt : mt < 0) : (maxCharsPerStep steps mt).toNat = 0 := by
  rw [Int.toNat_eq_zero]
  rcases Nat.eq_zero_or_pos steps.length with hn | hn
  · rw [maxCharsPerStep, hn]
    simp
  · refine le_of_lt (Int.fdiv_neg' (by omega) ?_)
    exact_mod_cast hn

/-- C6: the synthesis context lists one entry per step — every step appears
exactly once, none is dropped — each entry truncating its step's response
to `floor(budget * 4 / stepCount)` characters (with an ellipsis) only when
the response is longer; a negative budget clamps the truncation length to
zero, never negative; and whenever a run performs synthesis (more than one
recorded step), the budget it passes is
`min(synthesisReserve, contextWindow − cumulativeTokens − 10000)` — also
when that value is negative — and the context passed is exactly
`buildSynthesisContext` of the recorded steps at that budget;
`synthesisReserve` is `floor(contextWindow * 0.20)`. -/
theorem claim6 :
    (∀ (steps : List ResearchStep) (mt : ℤ),
      ∃ entries, buildSynthesisContext steps mt = joinSep (str "\n\n") entries ∧
        entries.length = steps.length ∧
        (∀ (j : ℕ) (hj : j < steps.length) (hj2 : j < entries.length),
          entries.get ⟨j, hj2⟩ =
            synthEntry steps mt j (steps.get ⟨j, hj⟩).response) ∧
        (mt < 0 → (maxCharsPerStep steps mt).toNat = 0)) ∧
    (∀ (cfg : RunCfg) (oracle : Oracle),
      1 < (runResearch cfg oracle).finalSteps.length →
      (runResearch cfg oracle).synthBudget =
        some (min (synthesisReserve cfg.contextWindow)
          ((cfg.contextWindow : ℤ) -
            ((runResearch cfg oracle).cumAtLoopEnd : ℤ) - 10000)) ∧
      (runResearch cfg oracle).synthContext =
        some (buildSynthesisContext (runResearch cfg oracle).finalSteps
          (min (synthesisReserve cfg.contextWindow)
            ((cfg.contextWindow : ℤ) -
              ((runResearch cfg oracle).cumAtLoopEnd : ℤ) - 10000)))) ∧
    (∀ w : ℕ, synthesisReserve w = ⌊(w : ℚ) * 0.20⌋) := by
  refine ⟨?_, ?_, synthesisReserve_eq_floor⟩
  · intro steps mt
    refine ⟨synthEntries steps mt, rfl, ?_, ?_,
      fun hmt => maxCharsPerStep_toNat_zero hmt⟩
    · rw [synthEntries, List.length_map, List.enum_length]
    · intro j hj hj2
      rw [List.get_eq_getElem, List.get_eq_getElem]
      simp only [synthEntries] at hj2 ⊢
      rw [List.getElem_map, List.getElem_enum]
  · intro cfg oracle hlen
    cases hL : runLoop cfg oracle 0 (effIterations cfg.maxIterationsRaw).toNat
        (initState cfg (effIterations cfg.maxIterationsRaw).toNat) with
    | aborted st =>
      rw [runResearch_aborted hL] at hlen
      have := runLoop_abort_steps _ 0 _ st hL
      simp [this] at hlen
    | finished st b =>
      rw [runResearch_finished hL] at hlen ⊢
      rw [finishRun_finalSteps] at hlen
      have hne : st.steps ≠ [] := by
        intro h
        rw [h] at hlen
        simp at hlen
      unfold finishRun
      rw [if_neg hne, if_pos hlen]
      cases oracle.synth <;> exact ⟨rfl, rfl⟩

/-- Witness for C6's compactor characterization at a concrete input. -/
theorem claim6_witness :
    ∃ entries,
      buildSynthesisContext [⟨str "q", str "resp", [], 3⟩,
        ⟨str "q2", str "resp2", [], 4⟩] (-7) = joinSep (str "\n\n") entries ∧
      entries.length = 2 ∧
      (∀ (j : ℕ) (hj : j < ([⟨str "q", str "resp", [], 3⟩,
          ⟨str "q2", str "resp2", [], 4⟩] : List ResearchStep).length)
        (hj2 : j < entries.length),
        entries.get ⟨j, hj2⟩ = synthEntry [⟨str "q", str "resp", [], 3⟩,
          ⟨str "q2", str "resp2", [], 4⟩] (-7) j
          (([⟨str "q", str "resp", [], 3⟩,
            ⟨str "q2", str "resp2", [], 4⟩] : List ResearchStep).get ⟨j, hj⟩).response) ∧
      ((-7 : ℤ) < 0 → (maxCharsPerStep [⟨str "q", str "resp", [], 3⟩,
        ⟨str "q2", str "resp2", [], 4⟩] (-7)).toNat = 0) :=
  claim6.1 [⟨str "q", str "resp", [], 3⟩, ⟨str "q2", str "resp2", [], 4⟩] (-7)

/-- C9: on a non-empty candidate list the selector returns the name of a
member (never none); with `allowExperimental = false` and at least one
stable gemini candidate the result is stable; and when gemini candidates
exist, the result is drawn from the surviving candidates, its extracted
version is maximal among them, and a flash-named candidate at the maximal
version forces a flash-named result. -/
theorem claim9 (allowExp : Bool) (models : List ModelInfo) (hne : models ≠ []) :
    (∃ mi, mi ∈ models ∧ selectDefaultModel allowExp models = some mi.name) ∧
    (allowExp = false →
      (∃ mi, mi ∈ models ∧ hasGemini mi.name = true ∧ isStable mi.name = true) →
      ∀ n, selectDefaultModel false models = some n → isStable n = true) ∧
    (models.filter (fun m => hasGemini m.name) ≠ [] →
      ∃ mi, mi ∈ surviving allowExp (models.filter (fun m => hasGemini m.name)) ∧
        selectDefaultModel allowExp models = some mi.name ∧
        (∀ x ∈ surviving allowExp (models.filter (fun m => hasGemini m.name)),
          verLe (extractVersion x.name) (extractVersion mi.name) = true) ∧
        (∀ x ∈ surviving allowExp (models.filter (fun m => hasGemini m.name)),
          verEq (extractVersion x.name) (extractVersion mi.name) = true →
          isFlash x.name = true → isFlash mi.name = true)) := by
  match hM : models with
  | [] => exact absurd rfl hne
  | m0 :: ms =>
  refine ⟨?_, ?_, ?_⟩
  · cases hG : (m0 :: ms).filter (fun m => hasGemini m.name) with
    | nil =>
      refine ⟨m0, List.mem_cons_self _ _, ?_⟩
      simp [selectDefaultModel, hG]
    | cons g0 gr =>
      cases hs : surviving allowExp (g0 :: gr) with
      | nil => exact absurd hs (surviving_ne_nil _ (by simp))
      | cons x xs =>
        refine ⟨pickBest x xs, ?_, ?_⟩
        · have h1 : pickBest x xs ∈ x :: xs := pickBest_mem xs x
          rw [← hs] at h1
          have h2 := surviving_subset allowExp (g0 :: gr) _ h1
          rw [← hG] at h2
          exact List.mem_of_mem_filter h2
        · simp [selectDefaultModel, hG, hs]
  · rintro rfl ⟨z, hz, hzg, hzs⟩ n hn
    cases hG : (m0 :: ms).filter (fun m => hasGemini m.name) with
    | nil =>
      exfalso
      have : z ∈ (m0 :: ms).filter (fun m => hasGemini m.name) :=
        List.mem_filter.mpr ⟨hz, hzg⟩
      rw [hG] at this
      cases this
    | cons g0 gr =>
      cases hs : surviving false (g0 :: gr) with
      | nil => exact absurd hs (surviving_ne_nil _ (by simp))
      | cons x xs =>
        simp only [selectDefaultModel, hG, hs, Option.some.injEq] at hn
        have hmem : pickBest x xs ∈ surviving false (g0 :: gr) := by
          rw [hs]; exact pickBest_mem xs x
        have hstable : isStable (pickBest x xs).name = true := by
          refine surviving_stable ⟨z, ?_, hzs⟩ _ hmem
          rw [← hG]
          exact List.mem_filter.mpr ⟨hz, hzg⟩
        rw [← hn]
        exact hstable
  · intro hGne
    cases hG : (m0 :: ms).filter (fun m => hasGemini m.name) with
    | nil => exact absurd hG hGne
    | cons g0 gr =>
      cases hs : surviving allowExp (g0 :: gr) with
      | nil => exact absurd hs (surviving_ne_nil _ (by simp))
      | cons x xs =>
        refine ⟨pickBest x xs, ?_, ?_, ?_, ?_⟩
        · exact pickBest_mem xs x
        · simp [selectDefaultModel, hG, hs]
        · intro y hy
          exact pickBest_version_max xs x y hy
        · intro y hy
          exact pickBest_flash xs x y hy

/-- Witness for C9 at a concrete candidate list: a stable flash model, an
experimental model with a higher version, and a non-gemini model. -/
theorem claim9_witness :
    (∃ mi, mi ∈ [ModelInfo.mk (str "gemini-2.5-flash") 1000000,
        ModelInfo.mk (str "gemini-3.0-pro-exp") 1000000,
        ModelInfo.mk (str "other-model") 32000] ∧
      selectDefaultModel false
        [ModelInfo.mk (str "gemini-2.5-flash") 1000000,
         ModelInfo.mk (str "gemini-3.0-pro-exp") 1000000,
         ModelInfo.mk (str "other-model") 32000] = some mi.name) ∧
    (∀ n, selectDefaultModel false
        [ModelInfo.mk (str "gemini-2.5-flash") 1000000,
         ModelInfo.mk (str "gemini-3.0-pro-exp") 1000000,
         ModelInfo.mk (str "other-model") 32000] = some n →
      isStable n = true) :=
  ⟨(claim9 false _ (by decide)).1,
   fun n hn => (claim9 false _ (by decide)).2.1 rfl
     ⟨ModelInfo.mk (str "gemini-2.5-flash") 1000000,
      by decide, by decide, by decide⟩ n hn⟩

/-! ## Claim theorems for C8 and C4 -/

/-- C8 (counterexample): the claim asserts
`extract("http://a.com http://a.com/")` yields exactly one entry; the code
yields two — the trailing-slash form and the slash-free form are distinct
strings, and deduplication is by string equality. -/
theorem claim8_counterexample :
    extractSources (str "http://a.com http://a.com/") =
      [str "http://a.com", str "http://a.com/"] ∧
    (extractSources (str "http://a.com http://a.com/")).length ≠ 1 := by
  constructor
  · decide
  · decide

/-- C8 (amended): extraction is idempotent over the space-separated
concatenation of its own output, and identical duplicate matches are
deduplicated to a single entry (`extract("http://a.com http://a.com")`
yields one entry), but the trailing-slash and slash-free forms of a URL are
distinct entries (`extract("http://a.com http://a.com/")` yields two). -/
theorem claim8 :
    (∀ t : Str, extractSources (joinSpace (extractSources t)) = extractSources t) ∧
    extractSources (str "http://a.com http://a.com") = [str "http://a.com"] ∧
    extractSources (str "http://a.com http://a.com/") =
      [str "http://a.com", str "http://a.com/"] := by
  refine ⟨fun t => ?_, by decide, by decide⟩
  have hgood : ∀ g ∈ extractSources t, GoodTok g :=
    fun g hg => good_of_mem_extract hg
  show dedupFirst (((scanUrls (joinSpace (extractSources t))).map cleanUrl).filter
    (fun u => u.length > 10)) = extractSources t
  rw [scanUrls_joinSpace _ hgood,
    map_cleanUrl_id (fun g hg => (hgood g hg).2.1),
    List.filter_eq_self.mpr (fun a ha => by
      simpa using (hgood a ha).2.2)]
  exact dedupAux_eq_self _ [] (extractSources_nodup t)
    (fun x _ hx => (List.not_mem_nil x) hx)

/-- C4 (counterexample): the claim asserts the requested `max_iterations`
is clamped into `[3, 10]`, so `1` should become `3`; the code computes
`Math.min(1 || 5, 10) = 1`. -/
theorem claim4_counterexample :
    effIterations (some 1) = 1 ∧ effIterations (some 1) ≠ 3 := by
  constructor <;> decide

/-- C4 (amended): the effective iteration count is
`min(max_iterations || 5, 10)`: an absent value and the falsy value `0`
default to `5`; values above `10` are lowered to `10`; every other value —
including `1`, `2` and negative values — passes through unchanged.  There
is no lower clamp to `3` (only the declared input schema advertises a
minimum of 3); no value is ever rejected. -/
theorem claim4 :
    effIterations none = 5 ∧ effIterations (some 0) = 5 ∧
    (∀ v : ℤ, 10 < v → effIterations (some v) = 10) ∧
    (∀ v : ℤ, 0 < v → v ≤ 10 → effIterations (some v) = v) ∧
    (∀ v : ℤ, v < 0 → effIterations (some v) = v) := by
  refine ⟨by decide, by decide, ?_, ?_, ?_⟩
  · intro v hv
    have h0 : v ≠ 0 := by omega
    simp only [effIterations, jsOrFive, if_neg h0]
    omega
  · intro v hv1 hv2
    have h0 : v ≠ 0 := by omega
    simp only [effIterations, jsOrFive, if_neg h0]
    omega
  · intro v hv
    have h0 : v ≠ 0 := by omega
    simp only [effIterations, jsOrFive, if_neg h0]
    omega

/-! ### Facts about citation resolution (C7) -/

theorem dedupAux_congr {α : Type} [DecidableEq α] :
    ∀ (l s₁ s₂ : List α), (∀ a : α, a ∈ s₁ ↔ a ∈ s₂) →
    dedupAux s₁ l = dedupAux s₂ l := by
  intro l
  induction l with
  | nil => intro _ _ _; rfl
  | cons x l ih =>
    intro s₁ s₂ hmem
    by_cases hx : x ∈ s₁
    · rw [dedupAux, dedupAux, if_pos hx, if_pos ((hmem x).mp hx)]
      exact ih s₁ s₂ hmem
    · rw [dedupAux, dedupAux, if_neg hx, if_neg (fun h => hx ((hmem x).mpr h))]
      refine congrArg (x :: ·) (ih _ _ ?_)
      intro a
      simp only [List.mem_cons, hmem a]

theorem dedupAux_append {α : Type} [DecidableEq α] :
    ∀ (x y s : List α),
    dedupAux s (x ++ y) = dedupAux s x ++ dedupAux (dedupAux s x ++ s) y := by
  intro x
  induction x with
  | nil => intro y s; simp [dedupAux]
  | cons a x ih =>
    intro y s
    by_cases ha : a ∈ s
    · simp only [List.cons_append, dedupAux, if_pos ha]
      exact ih y s
    · simp only [List.cons_append, dedupAux, if_neg ha, List.append_eq]
      rw [ih y (a :: s)]
      refine congrArg (a :: ·)
        (congrArg (dedupAux (a :: s) x ++ ·) (dedupAux_congr _ _ _ ?_))
      intro b
      simp only [List.mem_append, List.mem_cons]
      tauto

theorem newIdxs_eq_dedup (chunks : List GroundingChunk) :
    ∀ (idxs used : List ℕ),
    newIdxs chunks idxs used = dedupAux used (idxs.filter (okIdx chunks)) := by
  intro idxs
  induction idxs with
  | nil => intro used; rfl
  | cons i rest ih =>
    intro used
    rw [List.filter_cons]
    by_cases hok : okIdx chunks i = true
    · rw [if_pos hok]
      by_cases hmem : i ∈ used
      · rw [newIdxs, if_neg (fun h => h.2 hmem), dedupAux, if_pos hmem, ih]
      · rw [newIdxs, if_pos ⟨hok, hmem⟩, dedupAux, if_neg hmem, ih]
    · rw [if_neg hok, newIdxs, if_neg (fun h => hok h.1), ih]

theorem citeIndices_spec (chunks : List GroundingChunk) :
    ∀ (idxs used : List ℕ) (links : List Str),
    citeIndices chunks idxs used links =
      ((newIdxs chunks idxs used).reverse ++ used,
       links ++ (newIdxs chunks idxs used).map (getUri chunks)) := by
  intro idxs
  induction idxs with
  | nil => intro used links; simp [citeIndices, newIdxs]
  | cons i rest ih =>
    intro used links
    by_cases h1 : i < chunks.length ∧ i ∉ used
    · obtain ⟨ch, hch⟩ : ∃ ch, chunks[i]? = some ch :=
        ⟨_, List.getElem?_eq_getElem h1.1⟩
      rw [citeIndices, if_pos h1, hch]
      show (match ch.webUri with
        | some uri => citeIndices chunks rest (i :: used) (links ++ [uri])
        | none => citeIndices chunks rest used links) = _
      cases hu : ch.webUri with
      | some uri =>
        have hok : okIdx chunks i = true := by
          simp [okIdx, h1.1, hasUri, hch, hu]
        have hgu : getUri chunks i = uri := by simp [getUri, hch, hu]
        rw [newIdxs, if_pos ⟨hok, h1.2⟩]
        show citeIndices chunks rest (i :: used) (links ++ [uri]) = _
        rw [ih]
        simp [hgu, List.reverse_cons, List.append_assoc]
      | none =>
        have hok : okIdx chunks i ≠ true := by
          simp [okIdx, h1.1, hasUri, hch, hu]
        rw [newIdxs, if_neg (fun h => hok h.1)]
        show citeIndices chunks rest used links = _
        rw [ih]
    · rw [citeIndices, if_neg h1]
      have hng : ¬(okIdx chunks i = true ∧ i ∉ used) := by
        rintro ⟨hok, hnm⟩
        have hlt : i < chunks.length := by
          by_contra hge
          simp [okIdx, hge] at hok
        exact h1 ⟨hlt, hnm⟩
      rw [newIdxs, if_neg hng, ih]

theorem newIdxs_append (chunks : List GroundingChunk) (a b used : List ℕ) :
    newIdxs chunks (a ++ b) used =
      newIdxs chunks a used ++
        newIdxs chunks b ((newIdxs chunks a used).reverse ++ used) := by
  rw [newIdxs_eq_dedup, newIdxs_eq_dedup, newIdxs_eq_dedup, List.filter_append,
    dedupAux_append]
  refine congrArg _ (dedupAux_congr _ _ _ ?_)
  intro x
  simp only [List.mem_append, List.mem_reverse]

theorem citeSupports_spec (chunks : List GroundingChunk) :
    ∀ (ss : List GroundingSupport) (used : List ℕ) (links : List Str),
    citeSupports chunks ss used links =
      ((newIdxs chunks ((ss.map (fun s => s.groundingChunkIndices)).flatten)
          used).reverse ++ used,
       links ++ (newIdxs chunks ((ss.map (fun s => s.groundingChunkIndices)).flatten)
          used).map (getUri chunks)) := by
  intro ss
  induction ss with
  | nil => intro used links; simp [citeSupports, newIdxs]
  | cons s ss ih =>
    intro used links
    rw [citeSupports, citeIndices_spec, ih]
    simp only [List.map_cons, List.flatten_cons, newIdxs_append, Prod.mk.injEq]
    constructor
    · simp [List.append_assoc, List.reverse_append]
    · simp [List.append_assoc]

theorem citationLinks_eq (md : GroundingMetadata) :
    (citeSupports md.groundingChunks md.groundingSupports [] []).2 =
      citationLinksSpec md := by
  rw [citeSupports_spec]
  simp [citationLinksSpec, referencedIdxs, dedupFirst, newIdxs_eq_dedup]

/-! ## Claim theorems for C7 -/

/-- C7 (counterexample): the claim asserts the processed content carries a
"Search queries used:" line whenever search queries were recorded; but with
recorded queries, a nonempty `groundingSupports` and an empty
`groundingChunks`, the function returns the text unmodified and the queries
line mandated by the claim is absent. -/
theorem claim7_counterexample :
    addInlineCitations (str "T") ⟨[⟨[0]⟩], [], [str "q"]⟩ = str "T" ∧
    (⟨[⟨[0]⟩], [], [str "q"]⟩ : GroundingMetadata).webSearchQueries ≠ [] ∧
    addInlineCitations (str "T") ⟨[⟨[0]⟩], [], [str "q"]⟩ ≠
      str "T" ++ searchLine ⟨[⟨[0]⟩], [], [str "q"]⟩ := by
  refine ⟨by decide, by decide, by decide⟩

/-- C7 (amended): with queries recorded and both supports and chunks empty,
the queries line alone is appended; with either supports or chunks empty
(but not both) the content passes through unmodified even if queries were
recorded; with both nonempty, the result is the text, plus a "Sources:"
line when at least one chunk resolves (URLs listed per distinct *chunk
index*, first-seen order — the same URL under two distinct referenced
indices appears twice; out-of-range indices and chunks without a URI are
skipped), plus the queries line when queries were recorded; with no
queries and either list empty, the content passes through unmodified. -/
theorem claim7 (text : Str) (md : GroundingMetadata) :
    (md.webSearchQueries ≠ [] → md.groundingSupports = [] →
      md.groundingChunks = [] →
      addInlineCitations text md = text ++ searchLine md) ∧
    (md.webSearchQueries = [] →
      (md.groundingSupports = [] ∨ md.groundingChunks = []) →
      addInlineCitations text md = text) ∧
    ((md.groundingSupports = [] ∨ md.groundingChunks = []) →
      ¬(md.groundingSupports = [] ∧ md.groundingChunks = []) →
      addInlineCitations text md = text) ∧
    (md.groundingSupports ≠ [] → md.groundingChunks ≠ [] →
      addInlineCitations text md =
        (if citationLinksSpec md ≠ [] then
          text ++ str "\n\nSources: " ++
            joinSep (str " ")
              ((citationLinksSpec md).map (fun u => '(' :: (u ++ [')'])))
        else text) ++
        (if md.webSearchQueries ≠ [] then searchLine md else [])) := by
  refine ⟨?_, ?_, ?_, ?_⟩
  · intro hq hs hc
    rw [addInlineCitations, if_pos ⟨hq, hs, hc⟩]
  · intro hq hor
    rw [addInlineCitations, if_neg (fun h => h.1 hq), if_pos hor]
  · intro hor hnot
    rw [addInlineCitations, if_neg (fun h => hnot ⟨h.2.1, h.2.2⟩), if_pos hor]
  · intro hs hc
    rw [addInlineCitations, if_neg (fun h => hs h.2.1),
      if_neg (fun h => h.elim hs hc), citationLinks_eq]

/-- Witness for C7's amended theorem at concrete metadata values. -/
theorem claim7_witness :
    addInlineCitations (str "T") ⟨[], [], [str "q"]⟩ =
      str "T" ++ searchLine ⟨[], [], [str "q"]⟩ ∧
    addInlineCitations (str "T") ⟨[], [⟨some (str "u")⟩], []⟩ = str "T" ∧
    addInlineCitations (str "T") ⟨[⟨[0]⟩], [], [str "q"]⟩ = str "T" ∧
    addInlineCitations (str "T")
        ⟨[⟨[0, 1, 0]⟩], [⟨some (str "u")⟩, ⟨none⟩], [str "q"]⟩ =
      (if citationLinksSpec
            ⟨[⟨[0, 1, 0]⟩], [⟨some (str "u")⟩, ⟨none⟩], [str "q"]⟩ ≠ [] then
        str "T" ++ str "\n\nSources: " ++
          joinSep (str " ")
            ((citationLinksSpec
                ⟨[⟨[0, 1, 0]⟩], [⟨some (str "u")⟩, ⟨none⟩], [str "q"]⟩).map
              (fun u => '(' :: (u ++ [')'])))
      else str "T") ++
      (if (⟨[⟨[0, 1, 0]⟩], [⟨some (str "u")⟩, ⟨none⟩],
            [str "q"]⟩ : GroundingMetadata).webSearchQueries ≠ [] then
        searchLine ⟨[⟨[0, 1, 0]⟩], [⟨some (str "u")⟩, ⟨none⟩], [str "q"]⟩
      else []) :=
  ⟨(claim7 (str "T") _).1 (by decide) rfl rfl,
   (claim7 (str "T") _).2.1 rfl (Or.inl rfl),
   (claim7 (str "T") _).2.2.1 (Or.inr rfl) (by decide),
   (claim7 (str "T") _).2.2.2 (by decide) (by decide)⟩

/-- Witness for C4's amended theorem at concrete inputs. -/
theorem claim4_witness :
    effIterations (some 12) = 10 ∧ effIterations (some 2) = 2 ∧
    effIterations (some (-3)) = -3 :=
  ⟨claim4.2.2.1 12 (by decide), claim4.2.2.2.1 2 (by decide) (by decide),
    claim4.2.2.2.2 (-3) (by decide)⟩

end GeminiMcp
